import Mathlib

/-!
Verification of the (k, n) secret-image-sharing engine `bmpsss`.

The definitions in the `Bmpsss` namespace are shallow embeddings of the C
functions in `src/bmpsss.c` and `src/util.c`:

* machine `int` values are modelled as `ℤ` (with explicit 32-bit wrap-around
  `wrap32` at the one place the C code can overflow, the power computation in
  `revealsecret`), `uint8_t` pixel values as `ℕ`;
* the C remainder operator `%` on `int` is `Int.tmod` (truncated remainder),
  and `util.c`'s `mod` helper is embedded as `cmod`;
* pixel buffers and matrix rows are `List` values, matching the C arrays.
-/

namespace Bmpsss

/-- The precomputed modular-inverse table `modinv[PRIME]` from `bmpsss.c`,
transcribed verbatim. -/
def modinvList : List ℕ :=
  [0, 1, 126, 84, 63, 201, 42, 36, 157, 28, 226, 137, 21, 58, 18, 67, 204,
   192, 14, 185, 113, 12, 194, 131, 136, 241, 29, 93, 9, 26, 159, 81, 102,
   213, 96, 208, 7, 95, 218, 103, 182, 49, 6, 216, 97, 106, 191, 235, 68, 41,
   246, 64, 140, 90, 172, 178, 130, 229, 13, 234, 205, 107, 166, 4, 51, 112,
   232, 15, 48, 211, 104, 99, 129, 196, 173, 164, 109, 163, 177, 197, 91, 31,
   150, 124, 3, 189, 108, 176, 174, 110, 53, 80, 221, 27, 243, 37, 34, 44,
   146, 71, 123, 169, 32, 39, 70, 153, 45, 61, 86, 76, 89, 199, 65, 20, 240,
   227, 132, 118, 117, 135, 228, 195, 179, 100, 83, 249, 2, 168, 151, 72, 56,
   23, 116, 134, 133, 119, 24, 11, 231, 186, 52, 162, 175, 165, 190, 206, 98,
   181, 212, 219, 82, 128, 180, 105, 207, 217, 214, 8, 224, 30, 171, 198, 141,
   77, 75, 143, 62, 248, 127, 101, 220, 160, 54, 74, 88, 142, 87, 78, 55, 122,
   152, 147, 40, 203, 236, 19, 139, 200, 247, 85, 144, 46, 17, 238, 22, 121,
   73, 79, 161, 111, 187, 5, 210, 183, 16, 60, 145, 154, 35, 245, 202, 69,
   148, 33, 156, 244, 43, 155, 38, 149, 170, 92, 225, 242, 158, 222, 10, 115,
   120, 57, 239, 138, 66, 237, 59, 47, 184, 233, 193, 230, 114, 25, 223, 94,
   215, 209, 50, 188, 167, 125, 250]

/-- Array read `modinv[i]` (out-of-range indices, which a valid run never
produces, default to 0). -/
def modinv (i : ℕ) : ℕ := modinvList.getD i 0

/-- The `mod` helper from `util.c`: C truncated remainder, shifted into
`[0, b)` when negative. -/
def cmod (a b : ℤ) : ℤ :=
  let m := a.tmod b
  if m < 0 then m + b else m

/-- The C `%` operator on `int` is truncated remainder. -/
def crem (a b : ℤ) : ℤ := a.tmod b

/-- `generatepixel(coeff, degree, value)` from `bmpsss.c`, idealized: the
accumulator loop `ret += coeff[i] * pow(value, i)` followed by `ret % PRIME`
in exact integer arithmetic.  The C code computes `pow` in double precision
and accumulates in a `double`/`intmax_t` mix; the two computations coincide
exactly when every intermediate value stays below `2^53` (true of every
input with `value^degree ≤ 2^31 - 1`, hence of all uses in the round-trip
theorems below), and `generatepixelD` below models the floating-point
computation bit-exactly. -/
def generatepixel (coeff : List ℕ) (degree : ℕ) (value : ℕ) : ℕ :=
  ((List.range (degree + 1)).foldl (fun ret i => ret + coeff.getD i 0 * value ^ i) 0) % 251

/-- Number of halvings that bring `n` below `2^53` (the bit width of the
IEEE-754 binary64 significand): the exponent of the unit in the last place
at magnitude `n`.  Structural recursion on a fuel argument; `1100` steps
cover every finite double. -/
def scale53 : ℕ → ℕ → ℕ
  | 0, _ => 0
  | fuel + 1, n => if n < 2 ^ 53 then 0 else scale53 fuel (n / 2) + 1

/-- Round a natural number to the nearest IEEE-754 binary64 value (53-bit
significand, round to nearest, ties to even), returned as a natural number.
Below `2^53` the identity; above, with `e` the scale from `scale53` (so
`2^(52+e) ≤ n < 2^(53+e)`), the nearest multiple of `2^e`, even-significand
at the halfway point. -/
def rnd53n (n : ℕ) : ℕ :=
  let e := scale53 1100 n
  if e = 0 then n
  else
    let q := n / 2 ^ e
    let r := n % 2 ^ e
    let h := 2 ^ (e - 1)
    if r < h then q * 2 ^ e
    else if h < r then (q + 1) * 2 ^ e
    else if q % 2 = 0 then q * 2 ^ e else (q + 1) * 2 ^ e

/-- Round an integer to the nearest binary64 value; IEEE-754 rounding is
sign-symmetric. -/
def rnd53 (z : ℤ) : ℤ :=
  if z < 0 then -(rnd53n z.natAbs : ℤ) else (rnd53n z.natAbs : ℤ)

/-- `generatepixel(coeff, degree, value)` from `bmpsss.c` with its
floating-point semantics modelled bit-exactly.  `pow(value, i)` (tgmath,
double version) is the binary64 value nearest `value^i` (glibc's `pow`
returns the nearest double at the arguments of the theorems below, checked
against the library; only at exact halfway values, avoided here, does it
round inconsistently).  The promotion `coeff[i]` → double is exact;
the product `coeff[i] * pow(value, i)` and the sum in `ret += …` are
IEEE-754 `*` and `+`, correctly rounded to nearest, ties to even; the store
into the `intmax_t` `ret` truncates toward zero, the identity here because
every rounded sum is an integer.  The return `ret % PRIME` is the C `%` on
`intmax_t` followed by the conversion to the `uint8_t` return type. -/
def generatepixelD (coeff : List ℕ) (degree : ℕ) (value : ℕ) : ℕ :=
  (crem ((List.range (degree + 1)).foldl
      (fun ret i => rnd53 (rnd53 ret + rnd53 ((coeff.getD i 0 : ℤ) * rnd53 ((value : ℤ) ^ i))))
      0) 251 % 256).toNat

/-- The parameter check in `main` (`bmpsss.c`): the program dies iff
`k > n || k < 2 || n < 2`.  (There is no `n ≤ 250` check; parsing only
rejects values above `UINT16_MAX`.) -/
def knDies (k n : ℕ) : Bool := decide (n < k) || decide (k < 2) || decide (n < 2)

/-! ### The Gauss-Jordan solver `findcoefficients`

The `k × (k+1)` matrix `mat` of C `int`s is a `List (List ℤ)`; `ent M i t`
is the array read `mat[i][t]`.  Every loop of the C function is rendered as
a structural recursion processing the same indices in the same order. -/

/-- Array read `mat[i][t]`. -/
def ent (M : List (List ℤ)) (i t : ℕ) : ℤ := (M.getD i []).getD t 0

/-- One iteration of the inner loop of the echelon phase: given pivot column
`j`, replace row `i` by `mod(mat[i][t] - (mat[i-1][t] * a) % PRIME, PRIME)`
for `t = j … k`, where `a = mat[i][j] * modinv[mat[i-1][j]]`. -/
def rowElim (k : ℕ) (M : List (List ℤ)) (i j : ℕ) : List (List ℤ) :=
  let a : ℤ := ent M i j * (modinv (ent M (i-1) j).toNat : ℤ)
  M.set i ((List.range (k+1)).map (fun t =>
    if j ≤ t then cmod (ent M i t - crem (ent M (i-1) t * a) 251) 251 else ent M i t))

/-- The inner loop `for (i = k-1; i > j; i--)` of the echelon phase, by the
number `c` of rows already processed (rows `k-1` down to `k-c`). -/
def elimRows (k j : ℕ) (M : List (List ℤ)) : ℕ → List (List ℤ)
  | 0 => M
  | c + 1 => rowElim k (elimRows k j M c) (k-1-c) j

/-- The outer loop `for (j = 0; j < k-1; j++)` of the echelon phase, by the
number of columns already processed. -/
def phase1 (k : ℕ) (M : List (List ℤ)) : ℕ → List (List ℤ)
  | 0 => M
  | j + 1 => elimRows k j (phase1 k M j) (k-1-j)

/-- The row scaling at the head of the back-substitution loop:
`mat[i][k] = (mat[i][k] * modinv[mat[i][i]]) % PRIME` followed by
`mat[i][i] = (mat[i][i] * modinv[mat[i][i]]) % PRIME`. -/
def p2scale (k : ℕ) (M : List (List ℤ)) (i : ℕ) : List (List ℤ) :=
  let w : ℤ := (modinv (ent M i i).toNat : ℕ)
  M.set i ((List.range (k+1)).map (fun t =>
    if t = k then crem (ent M i k * w) 251
    else if t = i then crem (ent M i i * w) 251
    else ent M i t))

/-- One iteration of the loop `for (t = i-1; t >= 0; t--)`:
`mat[t][k] = mod(mat[t][k] - (mat[i][k] * mat[t][i]) % PRIME, PRIME)` and
`mat[t][i] = 0`. -/
def p2elimRow (k : ℕ) (M : List (List ℤ)) (i t : ℕ) : List (List ℤ) :=
  M.set t ((List.range (k+1)).map (fun s =>
    if s = k then cmod (ent M t k - crem (ent M i k * ent M t i) 251) 251
    else if s = i then 0
    else ent M t s))

/-- The loop `for (t = i-1; t >= 0; t--)`, by the number `c` of rows already
processed (rows `i-1` down to `i-c`). -/
def p2elimRows (k i : ℕ) (M : List (List ℤ)) : ℕ → List (List ℤ)
  | 0 => M
  | c + 1 => p2elimRow k (p2elimRows k i M c) i (i-1-c)

/-- One full iteration of the back-substitution loop for row `i`. -/
def p2iter (k : ℕ) (M : List (List ℤ)) (i : ℕ) : List (List ℤ) :=
  p2elimRows k i (p2scale k M i) i

/-- The outer loop `for (i = k-1; i > 0; i--)` of the back-substitution
phase, by the number of iterations already executed. -/
def phase2 (k : ℕ) (M : List (List ℤ)) : ℕ → List (List ℤ)
  | 0 => M
  | c + 1 => p2iter k (phase2 k M c) (k-1-c)

/-- `findcoefficients(mat, k)` from `bmpsss.c`: Gauss-Jordan elimination
under modular arithmetic, echelon phase followed by back substitution. -/
def findcoefficients (M : List (List ℤ)) (k : ℕ) : List (List ℤ) :=
  phase2 k (phase1 k M (k-1)) (k-1)

/-! ### The distribution / recovery pipeline -/

/-- `truncategrayscale` from `bmpsss.c`: cap every pixel byte at 250. -/
def truncategrayscale (pixels : List ℕ) : List ℕ :=
  pixels.map (fun p => if 250 < p then 250 else p)

/-- `formshadows(bp, k, n, seed)` from `bmpsss.c`, at the pixel level: shadow
`i+1` (for `i = 0 … n-1`) has `P/k` pixels, pixel `j` being
`generatepixel(&bp->imgpixels[j*k], k-1, i+1)`.  Each shadow is paired with
its shadow number (stored in the BMP header field `unused2`). -/
def formshadows (pixels : List ℕ) (k n : ℕ) : List (ℕ × List ℕ) :=
  (List.range n).map (fun i =>
    (i + 1, (List.range (pixels.length / k)).map (fun j =>
      generatepixel (pixels.drop (j * k)) (k-1) (i + 1))))

/-- Two's-complement wrap-around of a 32-bit signed `int`, used where the C
multiplication `value *= sp->bmpheader.unused2` can overflow (signed
overflow is undefined behaviour in C; this models the usual wrap). -/
def wrap32 (z : ℤ) : ℤ := (z + 2^31) % 2^32 - 2^31

/-- The chain `value = x; value *= x; …` in `revealsecret`: `intpow32 x t`
is the value stored into `mat[j][t]` (`t ≥ 1`), i.e. `x^t` computed by
repeated 32-bit `int` multiplication. -/
def intpow32 (x : ℤ) : ℕ → ℤ
  | 0 => 1
  | 1 => x
  | t + 1 => wrap32 (intpow32 x t * x)

/-- The augmented matrix built by `revealsecret` for pixel index `i`:
row `j` is `[1, x_j, x_j², …, x_j^{k-1}, shadows[j].pixels[i]]` with the
powers computed in 32-bit `int` arithmetic. -/
def buildmat (k : ℕ) (shadows : List (ℕ × List ℕ)) (i : ℕ) : List (List ℤ) :=
  shadows.map (fun sp => (List.range (k+1)).map (fun t =>
    if t = 0 then 1
    else if t = k then ((sp.2.getD i 0 : ℕ) : ℤ)
    else intpow32 (sp.1 : ℤ) t))

/-- Conversion of the C `int` written into the `uint8_t` pixel array. -/
def toPixel (z : ℤ) : ℕ := (z % 256).toNat

/-- `revealsecret(shadows, width, height, k)` from `bmpsss.c`, at the pixel
level: for every pixel index `i` of the first shadow, solve the block's
system and write the `k` entries of column `k` to output positions
`i*k … i*k+k-1`. -/
def revealsecret (shadows : List (ℕ × List ℕ)) (k : ℕ) : List ℕ :=
  let pixels := ((shadows.headD (0, [])).2).length
  ((List.range pixels).map (fun i =>
    let F := findcoefficients (buildmat k shadows i) k
    (List.range k).map (fun r => toPixel (ent F r k)))).flatten

/-! ### Steganography: `hideshadow` / `retrieveshadow` -/

/-- `RIGHTMOST_BIT_ON` / `RIGHTMOST_BIT_OFF` applied according to the
current shadow bit. -/
def setlsb (c : ℕ) (b : Bool) : ℕ := if b then c ||| 1 else c &&& 254

/-- The test `byte & 0x80` after `j` left shifts of the `uint8_t` `byte`. -/
def msbAfterShifts (byte j : ℕ) : Bool := ((byte <<< j) % 256) &&& 128 ≠ 0

/-- `hideshadow(bp, shadow)` from `bmpsss.c`, at the pixel level: carrier
byte `8*i + j` receives in its least significant bit the `j`-th bit
(MSB first) of shadow byte `i`; carrier bytes past `8*M` are untouched. -/
def hideshadow (carrier : List ℕ) (shadow : List ℕ) : List ℕ :=
  (List.range carrier.length).map (fun j =>
    if j < 8 * shadow.length then
      setlsb (carrier.getD j 0) (msbAfterShifts (shadow.getD (j / 8) 0) (j % 8))
    else carrier.getD j 0)

/-- `retrieveshadow` from `bmpsss.c`, at the pixel level: shadow byte `i` is
reassembled from the least significant bits of carrier bytes
`8*i … 8*i+7`, MSB first (`mask` starts at `0x80` and shifts right). -/
def retrieveshadow (carrier : List ℕ) (m : ℕ) : List ℕ :=
  (List.range m).map (fun i =>
    (List.range 8).foldl (fun byte j =>
      if carrier.getD (8*i + j) 0 &&& 1 ≠ 0 then byte ||| (128 >>> j) else byte) 0)

/-! ### Pixel permutation

Both `permutepixels` and `unpermutepixels` re-seed the C PRNG with the same
seed and read the same stream of draws `randint(i)` for `i = N-1, N-2, …`;
the stream is abstracted as a function `d` with `d i ≤ i` (`randint(i)`
returns a value in `[0, i]`).  The buffer is a function `ℕ → ℕ`. -/

/-- `swap(&p[a], &p[b])`. -/
def swapF (f : ℕ → ℕ) (a b : ℕ) : ℕ → ℕ :=
  fun t => if t = a then f b else if t = b then f a else f t

/-- The loop of `permutepixels`: swaps `p[randint(i)] ↔ p[i]` for
`i = N-1` down to `2`, by the number `c` of swaps already done. -/
def permuteLoop (d : ℕ → ℕ) (f : ℕ → ℕ) (n : ℕ) : ℕ → ℕ → ℕ
  | 0 => f
  | c + 1 => swapF (permuteLoop d f n c) (d (n-1-c)) (n-1-c)

/-- `permutepixels(bp, seed)` on a buffer of `n` pixels with draw stream
`d`: the loop runs for `i = n-1, …, 2`, i.e. `n-2` iterations. -/
def permutepixels (d : ℕ → ℕ) (n : ℕ) (f : ℕ → ℕ) : ℕ → ℕ :=
  permuteLoop d f n (n - 2)

/-- The second loop of `unpermutepixels`: swaps `p[permseq[i]] ↔ p[i]` for
`i = 1` up to `n-2` (ascending), by iterations done; `permseq[i] = d i`
because the first loop replays the same draw stream. -/
def unpermuteLoop (d : ℕ → ℕ) (f : ℕ → ℕ) : ℕ → ℕ → ℕ
  | 0 => f
  | c + 1 => swapF (unpermuteLoop d f c) (d (c+1)) (c+1)

/-- `unpermutepixels(bp, seed)` on a buffer of `n` pixels with draw stream
`d`: the swap loop runs for `i = 1, …, n-2`, i.e. `n-2` iterations. -/
def unpermutepixels (d : ℕ → ℕ) (n : ℕ) (f : ℕ → ℕ) : ℕ → ℕ :=
  unpermuteLoop d f (n - 2)

/-! ### `findclosestpair` -/

/-- The loop of `findclosestpair`, counting `y` down while `y > 2`; if no
divisor greater than 2 is found the out-parameters keep their previous
(uninitialized) values `w`, `h`. -/
def fcpFrom (x w h : ℕ) : ℕ → ℕ × ℕ
  | 0 => (w, h)
  | y + 1 =>
    if 2 < y + 1 then
      (if x % (y+1) = 0 then (y+1, x / (y+1)) else fcpFrom x w h y)
    else (w, h)

/-- `findclosestpair(x, &width, &height)` from `bmpsss.c`.  The C start
value `floor(sqrt((double) x))` equals `Nat.sqrt x` for every `uint32_t`
input (the conversion to `double` is exact below `2^53` and `sqrt` is
correctly rounded, which cannot cross an integer boundary for `x < 2^32`). -/
def findclosestpair (x w h : ℕ) : ℕ × ℕ :=
  fcpFrom x w h (Nat.sqrt x)

/-! ### Auxiliary mathematical definitions for the solver proof -/

/-- Complete homogeneous symmetric function of degree `d` in a list of
field elements, via the generating recurrence
`h_{d+1}(u :: S) = h_{d+1}(S) + u · h_d(u :: S)`. -/
def hsym : ℕ → List (ZMod 251) → ZMod 251
  | 0, _ => 1
  | _ + 1, [] => 0
  | d + 1, u :: S => hsym (d+1) S + u * hsym d (u :: S)

/-- The shadow numbers as elements of `GF(251)`. -/
def Xc (x : ℕ → ℕ) (j : ℕ) : ZMod 251 := (x j : ZMod 251)

/-- The variables `X_{i}, X_{i-1}, …, X_{i-ℓ}` entering row `i` after `ℓ`
elimination passes. -/
def varlist (x : ℕ → ℕ) (i ℓ : ℕ) : List (ZMod 251) :=
  (List.range (ℓ+1)).map (fun m => Xc x (i - m))

/-- The pivot factor `∏_{m=1}^{ℓ} (X_i - X_{i-m})` of row `i` at level `ℓ`. -/
def Pfac (x : ℕ → ℕ) (i ℓ : ℕ) : ZMod 251 :=
  ∏ m in Finset.range ℓ, (Xc x i - Xc x (i - (m+1)))

/-- Closed form of entry `(i, t)` of the echelon phase when row `i` is at
level `ℓ`. -/
def rowVal (x : ℕ → ℕ) (i ℓ t : ℕ) : ZMod 251 :=
  if t < ℓ then 0 else Pfac x i ℓ * hsym (t - ℓ) (varlist x i ℓ)

/-- Row `r` of matrix `M` is satisfied by coefficient vector `a` modulo 251:
`Σ_{t<k} M[r][t]·a_t ≡ M[r][k]`. -/
def RowSat (k : ℕ) (M : List (List ℤ)) (a : ℕ → ZMod 251) (r : ℕ) : Prop :=
  (∑ t in Finset.range k, ((ent M r t : ℤ) : ZMod 251) * a t) = ((ent M r k : ℤ) : ZMod 251)

/-- All `k` rows of `M` are satisfied by `a`. -/
def SatInv (k : ℕ) (M : List (List ℤ)) (a : ℕ → ZMod 251) : Prop :=
  ∀ r, r < k → RowSat k M a r

/-- The sample points are pairwise distinct values in `[1, 250]`. -/
def XHyp (x : ℕ → ℕ) (k : ℕ) : Prop :=
  (∀ j, j < k → 1 ≤ x j ∧ x j ≤ 250) ∧
  (∀ j1 j2, j1 < k → j2 < k → x j1 = x j2 → j1 = j2)

/-- Shape of an input matrix for `findcoefficients`: `k` rows; column 0 is
literally 1, columns `1 … k-1` of row `j` hold nonnegative integers
congruent to `x_j^t` mod 251, column `k` holds a nonnegative integer. -/
def InputHyp (x : ℕ → ℕ) (k : ℕ) (M₀ : List (List ℤ)) : Prop :=
  M₀.length = k ∧
  (∀ i, i < k → ent M₀ i 0 = 1) ∧
  (∀ i t, i < k → 1 ≤ t → t < k → 0 ≤ ent M₀ i t ∧
    ((ent M₀ i t : ℤ) : ZMod 251) = Xc x i ^ t) ∧
  (∀ i, i < k → 0 ≤ ent M₀ i k)

/-- Invariant of the echelon phase: row `i` has been through `lev i`
elimination passes; its coefficient entries are the closed form `rowVal`,
all entries are nonnegative, rows already touched are reduced into
`[0, 250]`, and untouched rows still hold the input entries. -/
def LevInv (x : ℕ → ℕ) (k : ℕ) (lev : ℕ → ℕ) (M₀ M : List (List ℤ)) : Prop :=
  M.length = k ∧
  (∀ i t, i < k → t < k → ((ent M i t : ℤ) : ZMod 251) = rowVal x i (lev i) t) ∧
  (∀ i t, i < k → t ≤ k → 0 ≤ ent M i t) ∧
  (∀ i t, i < k → t ≤ k → 1 ≤ lev i → ent M i t ≤ 250) ∧
  (∀ i t, i < k → t ≤ k → lev i = 0 → ent M i t = ent M₀ i t)

/-- Invariant of the back-substitution phase after `c` iterations (rows
`k-1 … k-c` processed). -/
def P2Inv (x : ℕ → ℕ) (k c : ℕ) (T : List (List ℤ)) : Prop :=
  T.length = k ∧
  (∀ r, k - c ≤ r → r < k →
    ent T r r = 1 ∧ (∀ t, t < k → t ≠ r → ent T r t = 0) ∧
    0 ≤ ent T r k ∧ ent T r k ≤ 250) ∧
  (∀ r, r < k - c →
    (∀ t, t < r → ent T r t = 0) ∧
    ((ent T r r : ℤ) : ZMod 251) = Pfac x r r ∧
    (1 ≤ r → ent T r r ≤ 250) ∧
    (∀ t, t ≤ k → 0 ≤ ent T r t) ∧
    (∀ t, k - c ≤ t → t < k → ent T r t = 0) ∧
    (1 ≤ c → ent T r k ≤ 250))

/-- The `k × (k+1)` augmented Vandermonde matrix of claim C2:
`M[j][t] = x_j^t mod 251` and `M[j][k] = y_j`. -/
def vandMat (k : ℕ) (x y : ℕ → ℕ) : List (List ℤ) :=
  (List.range k).map (fun j => (List.range (k+1)).map (fun t =>
    if t = k then (y j : ℤ) else (((x j) ^ t % 251 : ℕ) : ℤ)))

end Bmpsss

namespace Bmpsss

/-! ### Basic facts about `cmod`, `crem` and `modinv` -/

instance : Fact (Nat.Prime 251) := ⟨by norm_num⟩

theorem tmod_ofNat (m : ℕ) : (Int.ofNat m).tmod 251 = ((m % 251 : ℕ) : ℤ) := rfl

theorem tmod_negSucc (m : ℕ) : (Int.negSucc m).tmod 251 = -(((m + 1) % 251 : ℕ) : ℤ) := rfl

theorem tmod_bounds (a : ℤ) : -251 < a.tmod 251 ∧ a.tmod 251 < 251 := by
  rcases a with m | m
  · rw [tmod_ofNat]
    have := Nat.mod_lt m (show 0 < 251 by norm_num)
    omega
  · rw [tmod_negSucc]
    have := Nat.mod_lt (m + 1) (show 0 < 251 by norm_num)
    omega

theorem tmod_sub_dvd (a : ℤ) : (251 : ℤ) ∣ (a - a.tmod 251) := by
  refine ⟨a.tdiv 251, ?_⟩
  have := Int.tmod_add_tdiv a 251
  omega

theorem cmod_eq_emod (a : ℤ) : cmod a 251 = a % 251 := by
  have hb := tmod_bounds a
  have hd := tmod_sub_dvd a
  have he1 : 0 ≤ a % 251 := Int.emod_nonneg a (by norm_num)
  have he2 : a % 251 < 251 := Int.emod_lt_of_pos a (by norm_num)
  have hd2 : (251 : ℤ) ∣ (a - a % 251) := by
    refine ⟨a / 251, ?_⟩
    have := Int.emod_add_ediv a 251
    omega
  unfold cmod
  by_cases h : a.tmod 251 < 0 <;> simp only [h, if_true, if_false] <;> omega

theorem cmod_nonneg (a : ℤ) : 0 ≤ cmod a 251 := by
  rw [cmod_eq_emod]; exact Int.emod_nonneg a (by norm_num)

theorem cmod_le (a : ℤ) : cmod a 251 ≤ 250 := by
  rw [cmod_eq_emod]
  have := Int.emod_lt_of_pos a (show (0:ℤ) < 251 by norm_num)
  omega

theorem cmod_cast (a : ℤ) : ((cmod a 251 : ℤ) : ZMod 251) = (a : ZMod 251) := by
  refine (ZMod.intCast_eq_intCast_iff' (cmod a 251) a 251).mpr ?_
  simp only [Nat.cast_ofNat]
  rw [cmod_eq_emod]
  exact Int.emod_emod_of_dvd a dvd_rfl

theorem crem_eq_emod_of_nonneg (a : ℤ) (ha : 0 ≤ a) : crem a 251 = a % 251 := by
  have hb := tmod_bounds a
  have hd := tmod_sub_dvd a
  have he1 : 0 ≤ a % 251 := Int.emod_nonneg a (by norm_num)
  have he2 : a % 251 < 251 := Int.emod_lt_of_pos a (by norm_num)
  have hd2 : (251 : ℤ) ∣ (a - a % 251) := by
    refine ⟨a / 251, ?_⟩
    have := Int.emod_add_ediv a 251
    omega
  have htn : 0 ≤ a.tmod 251 := by
    rcases a with m | m
    · rw [tmod_ofNat]; positivity
    · exact absurd ha (not_le.mpr (Int.negSucc_lt_zero m))
  unfold crem
  omega

theorem crem_nonneg_cast (a : ℤ) (ha : 0 ≤ a) :
    ((crem a 251 : ℤ) : ZMod 251) = (a : ZMod 251) := by
  refine (ZMod.intCast_eq_intCast_iff' (crem a 251) a 251).mpr ?_
  simp only [Nat.cast_ofNat]
  rw [crem_eq_emod_of_nonneg a ha]
  exact Int.emod_emod_of_dvd a dvd_rfl

theorem crem_nonneg_bounds (a : ℤ) (ha : 0 ≤ a) : 0 ≤ crem a 251 ∧ crem a 251 ≤ 250 := by
  rw [crem_eq_emod_of_nonneg a ha]
  have h1 := Int.emod_nonneg a (show (251:ℤ) ≠ 0 by norm_num)
  have h2 := Int.emod_lt_of_pos a (show (0:ℤ) < 251 by norm_num)
  omega

set_option maxRecDepth 4000 in
theorem modinv_spec : ∀ w : Fin 251, w.val = 0 ∨ (w.val * modinv w.val) % 251 = 1 := by
  decide

theorem modinv_mul (w : ℕ) (h1 : 1 ≤ w) (h2 : w ≤ 250) : (w * modinv w) % 251 = 1 := by
  rcases modinv_spec ⟨w, by omega⟩ with h | h
  · simp only [Fin.val_mk] at h; omega
  · simpa using h

theorem modinv_cast (w : ℕ) (h1 : 1 ≤ w) (h2 : w ≤ 250) :
    ((modinv w : ℕ) : ZMod 251) = ((w : ZMod 251))⁻¹ := by
  have hmul : ((w : ZMod 251)) * ((modinv w : ℕ) : ZMod 251) = 1 := by
    have h := modinv_mul w h1 h2
    have hcast : (((w * modinv w) % 251 : ℕ) : ZMod 251) = ((w * modinv w : ℕ) : ZMod 251) :=
      ZMod.natCast_mod _ _
    rw [h] at hcast
    push_cast at hcast
    simpa using hcast.symm
  exact eq_inv_of_mul_eq_one_right hmul

end Bmpsss

namespace Bmpsss

/-! ### List access helpers -/

theorem getD_of_lt {α : Type} (l : List α) (d : α) (i : ℕ) (h : i < l.length) :
    l.getD i d = l[i] := by
  simp [List.getD_eq_getElem?_getD, List.getElem?_eq_getElem h]

theorem getD_of_ge {α : Type} (l : List α) (d : α) (i : ℕ) (h : l.length ≤ i) :
    l.getD i d = d := by
  simp [List.getD_eq_getElem?_getD, List.getElem?_eq_none h]

/-! ### Claim C4: the modular-inverse table -/

set_option maxRecDepth 4000 in
/-- C4: the precomputed table `modinv` has 251 entries, `modinv[0] = 0`,
`(a * modinv[a]) mod 251 = 1` for every `a ∈ [1, 250]`, and in particular
`modinv[126] = 2`, `modinv[84] = 3`, `modinv[250] = 250`. -/
theorem C4_modinv_table :
    modinvList.length = 251 ∧ modinv 0 = 0 ∧
    (∀ a : ℕ, 1 ≤ a → a ≤ 250 → (a * modinv a) % 251 = 1) ∧
    modinv 126 = 2 ∧ modinv 84 = 3 ∧ modinv 250 = 250 :=
  ⟨rfl, rfl, modinv_mul, rfl, rfl, rfl⟩

/-- Witness for C4 at `a = 126`. -/
theorem C4_modinv_table_witness : (126 * modinv 126) % 251 = 1 :=
  C4_modinv_table.2.2.1 126 (by norm_num) (by norm_num)

/-! ### Claim C3: polynomial evaluation `generatepixel` -/

theorem foldl_add_eq_sum (f : ℕ → ℕ) (n : ℕ) :
    (List.range n).foldl (fun r i => r + f i) 0 = ∑ i in Finset.range n, f i := by
  induction n with
  | zero => rfl
  | succ n ih =>
    rw [List.range_succ, List.foldl_append, ih, Finset.sum_range_succ]
    rfl

/-- The idealized exact-arithmetic `generatepixel` does satisfy the claimed
property: `(Σ_{i≤degree} coeff[i]·xⁱ) mod 251`, in `[0, 250]`, with the four
quoted values.  The claim fails on the code because the C computation is
not this one: see `C3_pow_precision_eval`. -/
theorem generatepixel_ideal_spec :
    (∀ (coeff : List ℕ) (degree x : ℕ),
      generatepixel coeff degree x
          = (∑ i in Finset.range (degree+1), coeff.getD i 0 * x ^ i) % 251 ∧
        generatepixel coeff degree x ≤ 250) ∧
    generatepixel [10,20] 1 1 = 30 ∧ generatepixel [30,40] 1 1 = 70 ∧
    generatepixel [10,20] 1 2 = 50 ∧ generatepixel [30,40] 1 2 = 110 := by
  refine ⟨fun coeff degree x => ⟨?_, ?_⟩, rfl, rfl, rfl, rfl⟩
  · unfold generatepixel
    rw [foldl_add_eq_sum]
  · unfold generatepixel
    have := Nat.mod_lt ((List.range (degree+1)).foldl
      (fun ret i => ret + coeff.getD i 0 * x ^ i) 0) (show 0 < 251 by norm_num)
    omega

/-- C3: the claim fails on the code.  With `coeff = [0,0,0,0,0,0,0,1]`
(bytes ≤ 250), `degree = 7` and `x = 215 ≤ 250`, the double-precision
computation of `generatepixel` returns `231`, but the polynomial value is
`215^7 mod 251 = 230`: `215^7 = 21235828992734375` lies above `2^53`, so
`pow` returns the nearest binary64 value `21235828992734376` (not a halfway
case: the true value is `1/4` ulp below it). -/
theorem C3_pow_precision_eval :
    generatepixelD [0,0,0,0,0,0,0,1] 7 215 = 231 ∧
    (∑ i in Finset.range 8, ([0,0,0,0,0,0,0,1] : List ℕ).getD i 0 * 215 ^ i) % 251 = 230 := by
  constructor
  · decide
  · decide

/-- The floating-point divergence compounds across a dense coefficient
vector: at `coeff = [7,11,13,17,19,23,29,31]`, `x = 215` the double
computation returns `114` (the value the compiled C function produces)
where the exact polynomial value mod 251 is `239`. -/
theorem generatepixelD_dense_eval :
    generatepixelD [7,11,13,17,19,23,29,31] 7 215 = 114 ∧
    (∑ i in Finset.range 8, ([7,11,13,17,19,23,29,31] : List ℕ).getD i 0 * 215 ^ i) % 251
      = 239 := by
  constructor
  · decide
  · decide

/-- On inputs where every intermediate stays below `2^53` the two
computations agree: the four quoted examples of the claim hold of the
floating-point code as well. -/
theorem generatepixelD_small_eval :
    generatepixelD [10,20] 1 1 = 30 ∧ generatepixelD [30,40] 1 1 = 70 ∧
    generatepixelD [10,20] 1 2 = 50 ∧ generatepixelD [30,40] 1 2 = 110 := by
  refine ⟨by decide, by decide, by decide, by decide⟩

/-! ### Claim C9: parameter validation -/

/-- C9 as stated is false: `main` never rejects `n > 250`; with `k = 2`,
`n = 251` the validation `k > n || k < 2 || n < 2` passes. -/
theorem C9_counterexample : knDies 2 251 = false := by decide

/-- C9 amended: the check in `main` dies exactly when `k > n`, `k < 2` or
`n < 2`; every pair with `2 ≤ k ≤ n` — including every `n > 250` — is
accepted. -/
theorem C9_knDies_iff : ∀ k n : ℕ, knDies k n = true ↔ (n < k ∨ k < 2 ∨ n < 2) := by
  intro k n
  simp [knDies, or_assoc]

/-! ### Claims C5 and C10: pixel permutation -/

/-- C5 fails on the code: with the admissible draw stream
`d 2 = 0, d 1 = 1` (each draw `d i ≤ i`, as `randint(i)` guarantees) and
3-pixel buffer `t ↦ t + 5` (`[5,6,7]`), `permutepixels` swaps pixels 0 and
2 but `unpermutepixels`'s swap loop `i = 1 … N-2` only swaps index 1 with
itself, so the composite sends pixel 0 to 7 while the original is 5. -/
theorem C5_unpermute_permute_eval :
    (∀ i, (if i = 2 then 0 else if i = 1 then 1 else 0) ≤ i) ∧
    unpermutepixels (fun i => if i = 2 then 0 else if i = 1 then 1 else 0) 3
      (permutepixels (fun i => if i = 2 then 0 else if i = 1 then 1 else 0) 3
        (fun t => t + 5)) 0 = 7 ∧
    (fun t : ℕ => t + 5) 0 = 5 := by
  refine ⟨fun i => ?_, rfl, rfl⟩
  rcases Nat.lt_or_ge i 3 with h | h
  · interval_cases i <;> simp
  · have h2 : i ≠ 2 := by omega
    have h1 : i ≠ 1 := by omega
    simp [h1, h2]

theorem swapF_apply_other (f : ℕ → ℕ) (a b t : ℕ) (ha : t ≠ a) (hb : t ≠ b) :
    swapF f a b t = f t := by
  simp [swapF, ha, hb]

/-- C10: for every admissible draw stream and every buffer of `n ≥ 3`
pixels, `unpermutepixels` never modifies the last pixel: each swap touches
indices `i ≤ n-2` and `permseq[i] = d i ≤ i`, so index `n-1` is fixed. -/
theorem C10_unpermute_fixes_last (d : ℕ → ℕ) (n : ℕ) (f : ℕ → ℕ)
    (hd : ∀ i, d i ≤ i) (hn : 3 ≤ n) :
    unpermutepixels d n f (n-1) = f (n-1) := by
  have key : ∀ c, c ≤ n - 2 → unpermuteLoop d f c (n-1) = f (n-1) := by
    intro c
    induction c with
    | zero => intro _; rfl
    | succ c ih =>
      intro hc
      have h1 : (n-1) ≠ (c+1) := by omega
      have h2 : (n-1) ≠ d (c+1) := by
        have := hd (c+1)
        omega
      unfold unpermuteLoop
      rw [swapF_apply_other _ _ _ _ h2 h1]
      exact ih (by omega)
  exact key (n-2) le_rfl

/-- Witness for C10: stream `d i = i/2`, buffer `t ↦ t`, `n = 3`. -/
theorem C10_unpermute_fixes_last_witness :
    unpermutepixels (fun i => i / 2) 3 (fun t => t) 2 = 2 :=
  C10_unpermute_fixes_last (fun i => i / 2) 3 (fun t => t)
    (fun i => Nat.div_le_self i 2) (by norm_num)

end Bmpsss

namespace Bmpsss

/-! ### Claims C6 and C7: LSB steganography -/

set_option maxRecDepth 4000 in
theorem setlsb_and_one : ∀ (c : Fin 256) (b : Bool),
    (setlsb c.val b) &&& 1 = (if b then 1 else 0) := by decide

set_option maxRecDepth 4000 in
theorem setlsb_xor_le : ∀ (c : Fin 256) (b : Bool), (setlsb c.val b) ^^^ c.val ≤ 1 := by decide

set_option maxRecDepth 2000 in
theorem recompose_byte : ∀ b : Fin 256,
    (List.range 8).foldl
      (fun byte j => if msbAfterShifts b.val j then byte ||| (128 >>> j) else byte) 0
      = b.val := by
  decide

theorem hideshadow_getD (carrier shadow : List ℕ) (j : ℕ) (hj : j < carrier.length) :
    (hideshadow carrier shadow).getD j 0 =
      if j < 8 * shadow.length then
        setlsb (carrier.getD j 0) (msbAfterShifts (shadow.getD (j / 8) 0) (j % 8))
      else carrier.getD j 0 := by
  unfold hideshadow
  rw [getD_of_lt _ _ _ (by simpa using hj)]
  simp

/-- C6: extraction inverts embedding: for every shadow `S` of `M` pixel
bytes and carrier `C` with at least `8·M` pixel bytes, `retrieveshadow`
reads back exactly `S` from `hideshadow C S`; and embedding byte
`0b10110100` into eight zero carrier bytes yields
`[1,0,1,1,0,1,0,0]`. -/
theorem C6_stego_roundtrip :
    (∀ (shadow carrier : List ℕ), (∀ s ∈ shadow, s < 256) → (∀ c ∈ carrier, c < 256) →
      8 * shadow.length ≤ carrier.length →
      retrieveshadow (hideshadow carrier shadow) shadow.length = shadow) ∧
    hideshadow [0,0,0,0,0,0,0,0] [180] = [1,0,1,1,0,1,0,0] := by
  constructor
  · intro shadow carrier hs hc hlen
    apply List.ext_getElem
    · simp [retrieveshadow]
    intro i h1 h2
    have hi : i < shadow.length := h2
    have hb : shadow[i] < 256 := hs _ (List.getElem_mem _)
    simp only [retrieveshadow, List.getElem_map, List.getElem_range]
    have hcar : ∀ j, j < 8 →
        (hideshadow carrier shadow).getD (8*i + j) 0 =
          setlsb (carrier.getD (8*i + j) 0) (msbAfterShifts shadow[i] j) := by
      intro j hj
      have hlt : 8*i + j < carrier.length := by omega
      rw [hideshadow_getD carrier shadow _ hlt]
      have hdiv : (8*i + j) / 8 = i := by omega
      have hmod : (8*i + j) % 8 = j := by omega
      have hin : 8*i + j < 8 * shadow.length := by omega
      rw [if_pos hin, hdiv, hmod, getD_of_lt _ _ _ hi]
    rw [List.foldl_ext _ (fun byte j =>
        if msbAfterShifts shadow[i] j then byte ||| (128 >>> j) else byte) 0 ?_]
    · exact recompose_byte ⟨shadow[i], hb⟩
    · intro byte j hj
      have hj8 : j < 8 := List.mem_range.mp hj
      rw [hcar j hj8]
      have hclt : carrier.getD (8*i + j) 0 < 256 := by
        rw [getD_of_lt _ _ _ (by omega)]
        exact hc _ (List.getElem_mem _)
      have := setlsb_and_one ⟨carrier.getD (8*i + j) 0, hclt⟩ (msbAfterShifts shadow[i] j)
      simp only [Fin.val_mk] at this
      rw [this]
      cases hmsb : msbAfterShifts shadow[i] j <;> simp [hmsb]
  · decide

/-- Witness for C6: shadow `[180]` into eight zero carrier bytes. -/
theorem C6_stego_roundtrip_witness :
    retrieveshadow (hideshadow [0,0,0,0,0,0,0,0] [180]) 1 = [180] :=
  C6_stego_roundtrip.1 [180] [0,0,0,0,0,0,0,0] (by decide) (by decide) (by norm_num)

/-- C7: embedding touches only least-significant bits: `hideshadow`
preserves the buffer length, changes every carrier byte by an XOR of at
most 1, and leaves bytes at index `≥ 8·M` entirely unchanged. -/
theorem C7_lsb_isolation :
    ∀ (carrier shadow : List ℕ), (∀ c ∈ carrier, c < 256) →
      (hideshadow carrier shadow).length = carrier.length ∧
      ∀ j, j < carrier.length →
        ((hideshadow carrier shadow).getD j 0) ^^^ (carrier.getD j 0) ≤ 1 ∧
        (8 * shadow.length ≤ j → (hideshadow carrier shadow).getD j 0 = carrier.getD j 0) := by
  intro carrier shadow hc
  refine ⟨by simp [hideshadow], fun j hj => ?_⟩
  rw [hideshadow_getD carrier shadow j hj]
  by_cases hin : j < 8 * shadow.length
  · rw [if_pos hin]
    constructor
    · have hclt : carrier.getD j 0 < 256 := by
        rw [getD_of_lt _ _ _ hj]
        exact hc _ (List.getElem_mem _)
      have := setlsb_xor_le ⟨carrier.getD j 0, hclt⟩
        (msbAfterShifts (shadow.getD (j / 8) 0) (j % 8))
      simpa using this
    · intro hge; omega
  · rw [if_neg hin]
    exact ⟨by simp, fun _ => rfl⟩

/-- Witness for C7: carrier `[7, 9]`, shadow `[]` (no byte modified). -/
theorem C7_lsb_isolation_witness :
    (hideshadow [7, 9] []).length = 2 ∧
    ∀ j, j < 2 →
      ((hideshadow [7, 9] []).getD j 0) ^^^ ([7, 9].getD j 0) ≤ 1 ∧
      (8 * ([] : List ℕ).length ≤ j → (hideshadow [7, 9] []).getD j 0 = [7, 9].getD j 0) := by
  have h := C7_lsb_isolation [7, 9] [] (by decide)
  exact ⟨h.1, fun j hj => h.2 j hj⟩

end Bmpsss

namespace Bmpsss

/-! ### Claim C8: `findclosestpair` -/

theorem fcpFrom_none (x w0 h0 : ℕ) :
    ∀ y, (∀ d, 2 < d → d ≤ y → ¬ d ∣ x) → fcpFrom x w0 h0 y = (w0, h0) := by
  intro y
  induction y with
  | zero => intro _; rfl
  | succ y ih =>
    intro h
    unfold fcpFrom
    by_cases h2 : 2 < y + 1
    · have hnd : ¬ (y+1) ∣ x := h (y+1) h2 le_rfl
      have hm : ¬ x % (y+1) = 0 := fun hm => hnd (Nat.dvd_iff_mod_eq_zero.mpr hm)
      rw [if_pos h2, if_neg hm]
      exact ih (fun d hd hdy => h d hd (by omega))
    · rw [if_neg h2]

theorem fcpFrom_found (x w0 h0 : ℕ) :
    ∀ y, (∃ d, 2 < d ∧ d ≤ y ∧ d ∣ x) →
      ∃ w, fcpFrom x w0 h0 y = (w, x / w) ∧ 2 < w ∧ w ≤ y ∧ w ∣ x ∧
        (∀ d, 2 < d → d ≤ y → d ∣ x → d ≤ w) := by
  intro y
  induction y with
  | zero => rintro ⟨d, hd2, hdy, _⟩; omega
  | succ y ih =>
    rintro ⟨d, hd2, hdy, hdvd⟩
    have h2 : 2 < y + 1 := by omega
    by_cases hmod : x % (y+1) = 0
    · refine ⟨y+1, ?_, h2, le_rfl, Nat.dvd_iff_mod_eq_zero.mpr hmod,
        fun d' _ hd' _ => hd'⟩
      unfold fcpFrom
      rw [if_pos h2, if_pos hmod]
    · have hne : d ≠ y + 1 := by
        intro h
        exact hmod (Nat.dvd_iff_mod_eq_zero.mp (h ▸ hdvd))
      obtain ⟨w, hw, hw2, hwy, hwdvd, hwmax⟩ := ih ⟨d, hd2, by omega, hdvd⟩
      refine ⟨w, ?_, hw2, by omega, hwdvd, ?_⟩
      · unfold fcpFrom
        rw [if_pos h2, if_neg hmod]
        exact hw
      · intro d' h2' hdy' hdvd'
        have : d' ≠ y + 1 := by
          intro h
          exact hmod (Nat.dvd_iff_mod_eq_zero.mp (h ▸ hdvd'))
        exact hwmax d' h2' (by omega) hdvd'

/-- C8 fails as stated: for `x = 7` (a legitimate shadow size, e.g. a
14-pixel secret with `k = 2`) the loop of `findclosestpair` finds no
divisor and never writes the out-parameters, so `w * h = x` fails. -/
theorem C8_counterexample :
    (findclosestpair 7 0 0).1 * (findclosestpair 7 0 0).2 ≠ 7 := by
  have hs : Nat.sqrt 7 = 2 := (Nat.eq_sqrt.mpr (by norm_num)).symm
  unfold findclosestpair
  rw [hs]
  decide

/-- C8 amended: whenever `x` has a divisor `d` with `2 < d ≤ √x`,
`findclosestpair` sets `w` to the largest divisor of `x` that is at most
`√x` and `h = x/w`, so `w·h = x`; when no such divisor exists (e.g. `x`
prime, `x = 4`, or `x` twice a prime) it leaves the out-parameters
unchanged. -/
theorem C8_findclosestpair_amended (x w0 h0 : ℕ) (_hx : 0 < x) :
    ((∃ d, 2 < d ∧ d ≤ Nat.sqrt x ∧ d ∣ x) →
      ∃ w, findclosestpair x w0 h0 = (w, x / w) ∧ 2 < w ∧ w ∣ x ∧ w ≤ Nat.sqrt x ∧
        (∀ d, d ∣ x → d ≤ Nat.sqrt x → d ≤ w) ∧ w * (x / w) = x) ∧
    ((¬ ∃ d, 2 < d ∧ d ≤ Nat.sqrt x ∧ d ∣ x) → findclosestpair x w0 h0 = (w0, h0)) := by
  constructor
  · rintro ⟨d, hd2, hdy, hdvd⟩
    obtain ⟨w, hw, hw2, hwy, hwdvd, hwmax⟩ :=
      fcpFrom_found x w0 h0 (Nat.sqrt x) ⟨d, hd2, hdy, hdvd⟩
    refine ⟨w, hw, hw2, hwdvd, hwy, ?_, Nat.mul_div_cancel' hwdvd⟩
    intro d' hdvd' hdy'
    by_cases h2' : 2 < d'
    · exact hwmax d' h2' hdy' hdvd'
    · omega
  · intro hno
    apply fcpFrom_none
    intro d hd2 hdy hdvd
    exact hno ⟨d, hd2, hdy, hdvd⟩

/-- Witness for C8 at `x = 12`: the divisor found is `3` and `h = 4`. -/
theorem C8_findclosestpair_amended_witness :
    ∃ w, findclosestpair 12 0 0 = (w, 12 / w) ∧ 2 < w ∧ w ∣ 12 ∧ w ≤ Nat.sqrt 12 ∧
      (∀ d, d ∣ 12 → d ≤ Nat.sqrt 12 → d ≤ w) ∧ w * (12 / w) = 12 :=
  (C8_findclosestpair_amended 12 0 0 (by norm_num)).1
    ⟨3, by norm_num, Nat.le_sqrt.mpr (by norm_num), by norm_num⟩

end Bmpsss

namespace Bmpsss

/-! ### Complete homogeneous symmetric functions -/

theorem hsym_zero (S : List (ZMod 251)) : hsym 0 S = 1 := by
  simp [hsym]

theorem hsym_nil (d : ℕ) : hsym (d+1) [] = 0 := by
  simp [hsym]

theorem hsym_cons (d : ℕ) (u : ZMod 251) (S : List (ZMod 251)) :
    hsym (d+1) (u :: S) = hsym (d+1) S + u * hsym d (u :: S) := by
  simp [hsym]

theorem hsym_sub_head (d : ℕ) (u v : ZMod 251) (S : List (ZMod 251)) :
    hsym (d+1) (u :: S) - hsym (d+1) (v :: S) = (u - v) * hsym d (u :: v :: S) := by
  induction d with
  | zero =>
    rw [hsym_cons 0 u S, hsym_cons 0 v S, hsym_zero, hsym_zero, hsym_zero]
    ring
  | succ d ih =>
    rw [hsym_cons (d+1) u S, hsym_cons (d+1) v S, hsym_cons d u (v :: S)]
    linear_combination u * ih

theorem hsym_swap (d : ℕ) (u v : ZMod 251) (S : List (ZMod 251)) :
    hsym d (u :: v :: S) = hsym d (v :: u :: S) := by
  induction d with
  | zero => rw [hsym_zero, hsym_zero]
  | succ d ih =>
    have hm := hsym_sub_head d v u S
    rw [hsym_cons d u (v :: S), hsym_cons d v (u :: S)]
    linear_combination hm + u * ih

theorem hsym_cons_congr (b : ZMod 251) (S S' : List (ZMod 251))
    (h : ∀ e, hsym e S = hsym e S') : ∀ d, hsym d (b :: S) = hsym d (b :: S') := by
  intro d
  induction d with
  | zero => rw [hsym_zero, hsym_zero]
  | succ d ih => rw [hsym_cons d b S, hsym_cons d b S', h (d+1), ih]

theorem hsym_rotate (u : ZMod 251) (S : List (ZMod 251)) :
    ∀ d, hsym d (u :: S) = hsym d (S ++ [u]) := by
  induction S with
  | nil => intro d; rw [List.nil_append]
  | cons b T ih =>
    intro d
    calc hsym d (u :: b :: T) = hsym d (b :: u :: T) := hsym_swap d u b T
    _ = hsym d (b :: (T ++ [u])) := hsym_cons_congr b (u :: T) (T ++ [u]) ih d
    _ = hsym d ((b :: T) ++ [u]) := rfl

theorem hsym_single (u : ZMod 251) : ∀ d, hsym d [u] = u ^ d := by
  intro d
  induction d with
  | zero => rw [hsym_zero, pow_zero]
  | succ d ih =>
    rw [hsym_cons d u [], hsym_nil, ih, pow_succ]
    ring

/-! ### `varlist` and `Pfac` -/

theorem varlist_zero (x : ℕ → ℕ) (i : ℕ) : varlist x i 0 = [Xc x i] := by
  unfold varlist
  rw [List.range_succ]
  simp

theorem varlist_cons (x : ℕ → ℕ) (i ℓ : ℕ) :
    varlist x i (ℓ+1) = Xc x i :: varlist x (i-1) ℓ := by
  unfold varlist
  rw [List.range_succ_eq_map]
  simp only [List.map_cons, List.map_map, Nat.sub_zero]
  congr 1
  apply List.map_congr_left
  intro m _
  simp only [Function.comp_apply]
  congr 1
  omega

theorem varlist_snoc (x : ℕ → ℕ) (i ℓ : ℕ) :
    varlist x i (ℓ+1) = varlist x i ℓ ++ [Xc x (i - (ℓ+1))] := by
  unfold varlist
  rw [List.range_succ, List.map_append]
  rfl

theorem Pfac_zero (x : ℕ → ℕ) (i : ℕ) : Pfac x i 0 = 1 := by
  simp [Pfac]

theorem Pfac_succ (x : ℕ → ℕ) (i ℓ : ℕ) :
    Pfac x i (ℓ+1) = Pfac x i ℓ * (Xc x i - Xc x (i - (ℓ+1))) := by
  simp [Pfac, Finset.prod_range_succ]

/-- The central identity: subtracting the level-`ℓ` closed forms of rows
`i` and `i-1` produces the level-`ℓ+1` closed form of row `i` times the new
difference factor. -/
theorem elim_identity (x : ℕ → ℕ) (i ℓ d : ℕ) :
    hsym (d+1) (varlist x i ℓ) - hsym (d+1) (varlist x (i-1) ℓ)
      = (Xc x i - Xc x (i - (ℓ+1))) * hsym d (varlist x i (ℓ+1)) := by
  rcases ℓ with _ | m
  · rw [varlist_zero, varlist_zero, varlist_cons, varlist_zero]
    exact hsym_sub_head d (Xc x i) (Xc x (i-1)) []
  · have h1 : varlist x i (m+1) = Xc x i :: varlist x (i-1) m := varlist_cons x i m
    have h2 : varlist x (i-1) (m+1) = varlist x (i-1) m ++ [Xc x ((i-1) - (m+1))] :=
      varlist_snoc x (i-1) m
    have hidx : (i-1) - (m+1) = i - (m+1+1) := by omega
    rw [h1, h2, hidx, ← hsym_rotate (Xc x (i - (m+1+1))) (varlist x (i-1) m) (d+1)]
    rw [hsym_sub_head d (Xc x i) (Xc x (i - (m+1+1))) (varlist x (i-1) m)]
    congr 1
    have h3 : varlist x i (m+1+1) = Xc x i :: varlist x (i-1) (m+1) := varlist_cons x i (m+1)
    rw [h3, h2, hidx]
    exact hsym_cons_congr (Xc x i) (Xc x (i - (m+1+1)) :: varlist x (i-1) m)
      (varlist x (i-1) m ++ [Xc x (i - (m+1+1))])
      (fun e => hsym_rotate _ _ e) d

end Bmpsss

namespace Bmpsss

/-! ### Matrix entry lemmas -/

theorem ent_set_self (M : List (List ℤ)) (i : ℕ) (r : List ℤ) (t : ℕ) (hi : i < M.length) :
    ent (M.set i r) i t = r.getD t 0 := by
  unfold ent
  have hlen : i < (M.set i r).length := by simpa using hi
  rw [getD_of_lt (M.set i r) [] i hlen, List.getElem_set_self]

theorem ent_set_ne (M : List (List ℤ)) (i : ℕ) (r : List ℤ) (i' t : ℕ) (h : i' ≠ i) :
    ent (M.set i r) i' t = ent M i' t := by
  unfold ent
  congr 1
  by_cases hlt : i' < M.length
  · have hlen : i' < (M.set i r).length := by simpa using hlt
    rw [getD_of_lt (M.set i r) [] i' hlen, getD_of_lt M [] i' hlt,
      List.getElem_set_ne (by omega)]
  · have hge : (M.set i r).length ≤ i' := by simpa using (not_lt.mp hlt)
    rw [getD_of_ge (M.set i r) [] i' hge, getD_of_ge M [] i' (not_lt.mp hlt)]

theorem getD_range_map (f : ℕ → ℤ) (n t : ℕ) (ht : t < n) :
    ((List.range n).map f).getD t 0 = f t := by
  have hlen : t < ((List.range n).map f).length := by simpa using ht
  rw [getD_of_lt _ 0 t hlen]
  simp

theorem ent_rowElim_self (k : ℕ) (M : List (List ℤ)) (i j t : ℕ)
    (hi : i < M.length) (ht : t ≤ k) :
    ent (rowElim k M i j) i t =
      if j ≤ t then
        cmod (ent M i t -
          crem (ent M (i-1) t * (ent M i j * (modinv (ent M (i-1) j).toNat : ℤ))) 251) 251
      else ent M i t := by
  unfold rowElim
  rw [ent_set_self _ _ _ _ hi, getD_range_map _ _ _ (by omega)]

theorem ent_rowElim_ne (k : ℕ) (M : List (List ℤ)) (i j i' t : ℕ) (h : i' ≠ i) :
    ent (rowElim k M i j) i' t = ent M i' t :=
  ent_set_ne M i _ i' t h

theorem rowElim_length (k : ℕ) (M : List (List ℤ)) (i j : ℕ) :
    (rowElim k M i j).length = M.length := by
  unfold rowElim
  simp

theorem ent_p2scale_self (k : ℕ) (M : List (List ℤ)) (i t : ℕ)
    (hi : i < M.length) (ht : t ≤ k) :
    ent (p2scale k M i) i t =
      if t = k then crem (ent M i k * (modinv (ent M i i).toNat : ℕ)) 251
      else if t = i then crem (ent M i i * (modinv (ent M i i).toNat : ℕ)) 251
      else ent M i t := by
  unfold p2scale
  rw [ent_set_self _ _ _ _ hi, getD_range_map _ _ _ (by omega)]

theorem ent_p2scale_ne (k : ℕ) (M : List (List ℤ)) (i i' t : ℕ) (h : i' ≠ i) :
    ent (p2scale k M i) i' t = ent M i' t :=
  ent_set_ne M i _ i' t h

theorem p2scale_length (k : ℕ) (M : List (List ℤ)) (i : ℕ) :
    (p2scale k M i).length = M.length := by
  unfold p2scale
  simp

theorem ent_p2elimRow_self (k : ℕ) (M : List (List ℤ)) (i t s : ℕ)
    (ht : t < M.length) (hs : s ≤ k) :
    ent (p2elimRow k M i t) t s =
      if s = k then cmod (ent M t k - crem (ent M i k * ent M t i) 251) 251
      else if s = i then 0
      else ent M t s := by
  unfold p2elimRow
  rw [ent_set_self _ _ _ _ ht, getD_range_map _ _ _ (by omega)]

theorem ent_p2elimRow_ne (k : ℕ) (M : List (List ℤ)) (i t t' s : ℕ) (h : t' ≠ t) :
    ent (p2elimRow k M i t) t' s = ent M t' s :=
  ent_set_ne M t _ t' s h

theorem p2elimRow_length (k : ℕ) (M : List (List ℤ)) (i t : ℕ) :
    (p2elimRow k M i t).length = M.length := by
  unfold p2elimRow
  simp

/-! ### Distinctness of the sample points in `GF(251)` -/

theorem Xc_injOn (x : ℕ → ℕ) (k : ℕ) (hx : XHyp x k) (a b : ℕ)
    (ha : a < k) (hb : b < k) (h : Xc x a = Xc x b) : a = b := by
  apply hx.2 a b ha hb
  have hva : (Xc x a).val = x a := ZMod.val_cast_of_lt (by have := (hx.1 a ha).2; omega)
  have hvb : (Xc x b).val = x b := ZMod.val_cast_of_lt (by have := (hx.1 b hb).2; omega)
  rw [← hva, ← hvb, h]

theorem Pfac_ne_zero (x : ℕ → ℕ) (k : ℕ) (hx : XHyp x k) (i ℓ : ℕ)
    (hi : i < k) (hℓ : ℓ ≤ i) : Pfac x i ℓ ≠ 0 := by
  unfold Pfac
  rw [Finset.prod_ne_zero_iff]
  intro m hm
  rw [Finset.mem_range] at hm
  have hne : i ≠ i - (m+1) := by omega
  have hik : i - (m+1) < k := by omega
  intro hz
  exact hne (Xc_injOn x k hx i (i - (m+1)) hi hik (by linear_combination hz))

theorem rowVal_pivot (x : ℕ → ℕ) (i ℓ : ℕ) : rowVal x i ℓ ℓ = Pfac x i ℓ := by
  unfold rowVal
  rw [if_neg (lt_irrefl ℓ), Nat.sub_self, hsym_zero, mul_one]

theorem rowVal_below (x : ℕ → ℕ) (i ℓ t : ℕ) (h : t < ℓ) : rowVal x i ℓ t = 0 := by
  unfold rowVal
  rw [if_pos h]

end Bmpsss

namespace Bmpsss

theorem toNat_cast_zmod (w : ℤ) (hw : 0 ≤ w) :
    ((w.toNat : ℕ) : ZMod 251) = ((w : ℤ) : ZMod 251) := by
  rw [← Int.cast_natCast, Int.toNat_of_nonneg hw]

/-- One `rowElim` application takes row `i₀` from level `lv` to level
`lv+1`: the closed form advances, the row becomes reduced, and the new row
is the old row minus a multiple of row `i₀-1` (mod 251). -/
theorem rowElim_step (x : ℕ → ℕ) (k : ℕ) (hx : XHyp x k)
    (M : List (List ℤ)) (lv i₀ : ℕ)
    (hi₀ : lv + 1 ≤ i₀) (hik : i₀ < k) (hlen : M.length = k)
    (hcur_cast : ∀ t, t < k → ((ent M i₀ t : ℤ) : ZMod 251) = rowVal x i₀ lv t)
    (hcur_nonneg : ∀ t, t ≤ k → 0 ≤ ent M i₀ t)
    (hcur_bound : 1 ≤ lv → ∀ t, t ≤ k → ent M i₀ t ≤ 250)
    (hpiv_cast : ∀ t, t < k → ((ent M (i₀-1) t : ℤ) : ZMod 251) = rowVal x (i₀-1) lv t)
    (hpiv_nonneg : ∀ t, t ≤ k → 0 ≤ ent M (i₀-1) t)
    (hpiv_bound : 1 ≤ lv → ent M (i₀-1) lv ≤ 250)
    (hpiv_one : lv = 0 → ent M (i₀-1) 0 = 1) :
    (∀ t, t < k → ((ent (rowElim k M i₀ lv) i₀ t : ℤ) : ZMod 251) = rowVal x i₀ (lv+1) t) ∧
    (∀ t, t ≤ k → 0 ≤ ent (rowElim k M i₀ lv) i₀ t ∧ ent (rowElim k M i₀ lv) i₀ t ≤ 250) ∧
    (∃ A : ZMod 251, ∀ t, t ≤ k →
      ((ent (rowElim k M i₀ lv) i₀ t : ℤ) : ZMod 251)
        = ((ent M i₀ t : ℤ) : ZMod 251) - ((ent M (i₀-1) t : ℤ) : ZMod 251) * A) := by
  have hlvk : lv < k := by omega
  set w : ℤ := ent M (i₀-1) lv with hw_def
  have hw_nonneg : 0 ≤ w := hpiv_nonneg lv (by omega)
  have hw_cast : ((w : ℤ) : ZMod 251) = Pfac x (i₀-1) lv := by
    rcases Nat.eq_zero_or_pos lv with h0 | hpos
    · rw [hw_def, h0, hpiv_one h0, Pfac_zero]
      norm_num
    · rw [hw_def, hpiv_cast lv hlvk, rowVal_pivot]
  have hPf_ne : Pfac x (i₀-1) lv ≠ 0 := Pfac_ne_zero x k hx (i₀-1) lv (by omega) (by omega)
  have hw_ne : w ≠ 0 := by
    intro h
    rw [h] at hw_cast
    exact hPf_ne (by simpa using hw_cast.symm)
  have hw_le : w ≤ 250 := by
    rcases Nat.eq_zero_or_pos lv with h0 | hpos
    · rw [hw_def, h0, hpiv_one h0]
      norm_num
    · exact hpiv_bound hpos
  have hwt1 : 1 ≤ w.toNat := by omega
  have hwt2 : w.toNat ≤ 250 := by omega
  have hminv_cast : ((modinv w.toNat : ℕ) : ZMod 251) = (Pfac x (i₀-1) lv)⁻¹ := by
    rw [modinv_cast w.toNat hwt1 hwt2, toNat_cast_zmod w hw_nonneg, hw_cast]
  set aInt : ℤ := ent M i₀ lv * (modinv w.toNat : ℤ) with ha_def
  have ha_nonneg : 0 ≤ aInt := mul_nonneg (hcur_nonneg lv (by omega)) (by positivity)
  set A : ZMod 251 := Pfac x i₀ lv * (Pfac x (i₀-1) lv)⁻¹ with hA_def
  have ha_cast : ((aInt : ℤ) : ZMod 251) = A := by
    rw [ha_def, Int.cast_mul, hcur_cast lv hlvk, rowVal_pivot, Int.cast_natCast, hminv_cast]
  have hent : ∀ t, t ≤ k → ent (rowElim k M i₀ lv) i₀ t =
      if lv ≤ t then cmod (ent M i₀ t - crem (ent M (i₀-1) t * aInt) 251) 251
      else ent M i₀ t := by
    intro t ht
    exact ent_rowElim_self k M i₀ lv t (by omega) ht
  have hrel : ∀ t, t ≤ k →
      ((ent (rowElim k M i₀ lv) i₀ t : ℤ) : ZMod 251)
        = ((ent M i₀ t : ℤ) : ZMod 251) - ((ent M (i₀-1) t : ℤ) : ZMod 251) * A := by
    intro t ht
    rw [hent t ht]
    by_cases hlt : lv ≤ t
    · rw [if_pos hlt, cmod_cast, Int.cast_sub,
        crem_nonneg_cast _ (mul_nonneg (hpiv_nonneg t ht) ha_nonneg), Int.cast_mul, ha_cast]
    · rw [if_neg hlt, hpiv_cast t (by omega), rowVal_below x _ lv t (by omega)]
      ring
  refine ⟨?_, ?_, ⟨A, hrel⟩⟩
  · intro t htk
    rw [hrel t (le_of_lt htk), hcur_cast t htk, hpiv_cast t htk]
    rcases lt_trichotomy t lv with h | h | h
    · rw [rowVal_below x i₀ lv t h, rowVal_below x (i₀-1) lv t h,
        rowVal_below x i₀ (lv+1) t (by omega)]
      ring
    · subst h
      rw [rowVal_pivot, rowVal_pivot, rowVal_below x i₀ (t+1) t (by omega), hA_def]
      field_simp
    · have hd : t - lv = (t - (lv+1)) + 1 := by omega
      have hd2 : ¬ t < lv := by omega
      have hd3 : ¬ t < lv + 1 := by omega
      unfold rowVal
      rw [if_neg hd2, if_neg hd2, if_neg hd3, hd]
      have hei := elim_identity x i₀ lv (t - (lv+1))
      have hcancel : Pfac x (i₀-1) lv * (Pfac x (i₀-1) lv)⁻¹ = 1 := mul_inv_cancel₀ hPf_ne
      rw [Pfac_succ, hA_def]
      linear_combination (Pfac x i₀ lv) * hei
        - (Pfac x i₀ lv) * (hsym (t - (lv+1) + 1) (varlist x (i₀-1) lv)) * hcancel
  · intro t ht
    rw [hent t ht]
    by_cases hlt : lv ≤ t
    · rw [if_pos hlt]
      exact ⟨cmod_nonneg _, cmod_le _⟩
    · rw [if_neg hlt]
      exact ⟨hcur_nonneg t ht, hcur_bound (by omega) t ht⟩

end Bmpsss

namespace Bmpsss

/-- Row operations preserve satisfaction: if row `r` of `M'` is row `r` of
`M` minus `A` times row `p`, and all other rows are unchanged, every
solution of `M` solves `M'`. -/
theorem sat_rowop (k : ℕ) (M M' : List (List ℤ)) (a : ℕ → ZMod 251) (r p : ℕ)
    (hrow : ∃ A : ZMod 251, ∀ t, t ≤ k →
      ((ent M' r t : ℤ) : ZMod 251)
        = ((ent M r t : ℤ) : ZMod 251) - ((ent M p t : ℤ) : ZMod 251) * A)
    (hothers : ∀ i t, i ≠ r → ent M' i t = ent M i t)
    (hp : p < k) (hSat : SatInv k M a) : SatInv k M' a := by
  intro i hi
  by_cases hir : i = r
  · subst hir
    obtain ⟨A, hA⟩ := hrow
    unfold RowSat
    have hs := hSat i hi
    have hsp := hSat p hp
    unfold RowSat at hs hsp
    calc (∑ t in Finset.range k, ((ent M' i t : ℤ) : ZMod 251) * a t)
        = ∑ t in Finset.range k,
            ((((ent M i t : ℤ) : ZMod 251) - ((ent M p t : ℤ) : ZMod 251) * A) * a t) := by
          refine Finset.sum_congr rfl (fun t htm => ?_)
          rw [hA t (le_of_lt (Finset.mem_range.mp htm))]
      _ = (∑ t in Finset.range k, ((ent M i t : ℤ) : ZMod 251) * a t)
            - A * ∑ t in Finset.range k, ((ent M p t : ℤ) : ZMod 251) * a t := by
          rw [Finset.mul_sum, ← Finset.sum_sub_distrib]
          refine Finset.sum_congr rfl (fun t _ => ?_)
          ring
      _ = ((ent M i k : ℤ) : ZMod 251) - A * ((ent M p k : ℤ) : ZMod 251) := by
          rw [hs, hsp]
      _ = ((ent M' i k : ℤ) : ZMod 251) := by
          rw [hA k le_rfl]
          ring
  · unfold RowSat
    have he : ∀ t, ent M' i t = ent M i t := fun t => hothers i t hir
    simp only [he]
    exact hSat i hi

/-- Transport of the echelon invariant along a pointwise-equal level
function. -/
theorem LevInv_congr (x : ℕ → ℕ) (k : ℕ) (lev lev' : ℕ → ℕ) (M₀ M : List (List ℤ))
    (h : ∀ i, i < k → lev i = lev' i) (hI : LevInv x k lev M₀ M) :
    LevInv x k lev' M₀ M := by
  obtain ⟨h1, h2, h3, h4, h5⟩ := hI
  exact ⟨h1, fun i t hik htk => by rw [← h i hik]; exact h2 i t hik htk, h3,
    fun i t hik htk hl => h4 i t hik htk (by rwa [h i hik]),
    fun i t hik htk hl => h5 i t hik htk (by rwa [h i hik])⟩

/-- Invariant of one full pass of the echelon phase, by the number of rows
already processed. -/
theorem elimRows_inv (x : ℕ → ℕ) (k : ℕ) (hx : XHyp x k) (M₀ : List (List ℤ))
    (hin : InputHyp x k M₀) (lv : ℕ) (hlv : lv + 1 ≤ k - 1)
    (M : List (List ℤ)) (hM : LevInv x k (fun i => min i lv) M₀ M)
    (a : ℕ → ZMod 251) (hSat : SatInv k M a) :
    ∀ c, c ≤ k - 1 - lv →
      LevInv x k (fun i => if k - c ≤ i then min i (lv+1) else min i lv) M₀
          (elimRows k lv M c)
        ∧ SatInv k (elimRows k lv M c) a := by
  have hk2 : 2 ≤ k := by omega
  intro c
  induction c with
  | zero =>
    intro _
    refine ⟨LevInv_congr x k _ _ M₀ M (fun i hik => ?_) hM, hSat⟩
    rw [if_neg (by omega)]
  | succ c ih =>
    intro hc
    obtain ⟨hInv, hSat'⟩ := ih (by omega)
    obtain ⟨hlen, hcast, hnn, hbd, hun⟩ := hInv
    simp only [] at hcast hbd hun
    have hi₀ : lv + 1 ≤ k - 1 - c := by omega
    have hik : k - 1 - c < k := by omega
    have hlev_i : (if k - c ≤ k - 1 - c then min (k-1-c) (lv+1) else min (k-1-c) lv) = lv := by
      rw [if_neg (by omega), Nat.min_eq_right (by omega)]
    have hlev_p : (if k - c ≤ k - 1 - c - 1 then min (k-1-c-1) (lv+1) else min (k-1-c-1) lv)
        = lv := by
      rw [if_neg (by omega), Nat.min_eq_right (by omega)]
    obtain ⟨hnew_cast, hnew_bd, hA⟩ := rowElim_step x k hx (elimRows k lv M c) lv (k-1-c)
      hi₀ hik hlen
      (fun t ht => by have := hcast (k-1-c) t hik ht; rwa [hlev_i] at this)
      (fun t ht => hnn (k-1-c) t hik ht)
      (fun hl t ht => hbd (k-1-c) t hik ht (by rw [hlev_i]; exact hl))
      (fun t ht => by have := hcast (k-1-c-1) t (by omega) ht; rwa [hlev_p] at this)
      (fun t ht => hnn (k-1-c-1) t (by omega) ht)
      (fun hl => hbd (k-1-c-1) lv (by omega) (by omega) (by rw [hlev_p]; exact hl))
      (fun hl => by
        have h0 : (if k - c ≤ k-1-c-1 then min (k-1-c-1) (lv+1) else min (k-1-c-1) lv) = 0 := by
          rw [hlev_p]; exact hl
        have := hun (k-1-c-1) 0 (by omega) (by omega) h0
        rw [this]
        exact hin.2.1 (k-1-c-1) (by omega))
    have hstep : elimRows k lv M (c+1) = rowElim k (elimRows k lv M c) (k-1-c) lv := rfl
    have hlevagree : ∀ i, i < k → i ≠ k-1-c →
        (if k - (c+1) ≤ i then min i (lv+1) else min i lv)
          = (if k - c ≤ i then min i (lv+1) else min i lv) := by
      intro i _ hne
      by_cases h1 : k - c ≤ i
      · rw [if_pos h1, if_pos (by omega)]
      · rw [if_neg h1, if_neg (by omega)]
    constructor
    · refine ⟨by rw [hstep, rowElim_length]; exact hlen, ?_, ?_, ?_, ?_⟩
      · intro i t hik' htk
        simp only []
        by_cases hii : i = k-1-c
        · subst hii
          rw [hstep]
          rw [if_pos (by omega), Nat.min_eq_right (by omega)]
          exact hnew_cast t htk
        · rw [hstep, ent_rowElim_ne k _ _ _ _ _ hii, hlevagree i hik' hii]
          exact hcast i t hik' htk
      · intro i t hik' htk
        by_cases hii : i = k-1-c
        · subst hii
          rw [hstep]
          exact (hnew_bd t htk).1
        · rw [hstep, ent_rowElim_ne k _ _ _ _ _ hii]
          exact hnn i t hik' htk
      · intro i t hik' htk hl
        simp only [] at hl
        by_cases hii : i = k-1-c
        · subst hii
          rw [hstep]
          exact (hnew_bd t htk).2
        · rw [hstep, ent_rowElim_ne k _ _ _ _ _ hii]
          exact hbd i t hik' htk (by rwa [← hlevagree i hik' hii])
      · intro i t hik' htk hl
        simp only [] at hl
        by_cases hii : i = k-1-c
        · subst hii
          rw [if_pos (by omega), Nat.min_eq_right (by omega)] at hl
          omega
        · rw [hstep, ent_rowElim_ne k _ _ _ _ _ hii]
          exact hun i t hik' htk (by rwa [← hlevagree i hik' hii])
    · rw [hstep]
      refine sat_rowop k (elimRows k lv M c) _ a (k-1-c) (k-1-c-1) hA
        (fun i t hir => ent_rowElim_ne k _ _ _ _ _ hir) (by omega) hSat'

/-- Invariant of the whole echelon phase: after `lv` passes, row `i` is at
level `min i lv`. -/
theorem phase1_inv (x : ℕ → ℕ) (k : ℕ) (hx : XHyp x k) (M₀ : List (List ℤ))
    (hin : InputHyp x k M₀) (hk : 2 ≤ k) (a : ℕ → ZMod 251) (hSat0 : SatInv k M₀ a) :
    ∀ lv, lv ≤ k - 1 →
      LevInv x k (fun i => min i lv) M₀ (phase1 k M₀ lv) ∧ SatInv k (phase1 k M₀ lv) a := by
  intro lv
  induction lv with
  | zero =>
    intro _
    have hph : phase1 k M₀ 0 = M₀ := rfl
    refine ⟨⟨hin.1, ?_, ?_, ?_, ?_⟩, hSat0⟩
    · intro i t hik htk
      simp only []
      rw [hph, Nat.min_zero]
      unfold rowVal
      rw [if_neg (Nat.not_lt_zero t), Pfac_zero, one_mul, Nat.sub_zero, varlist_zero,
        hsym_single]
      rcases Nat.eq_zero_or_pos t with h0 | hpos
      · rw [h0, hin.2.1 i hik, pow_zero]
        norm_num
      · exact (hin.2.2.1 i t hik hpos htk).2
    · intro i t hik htk
      rw [hph]
      rcases Nat.lt_or_ge t k with htk' | htk'
      · rcases Nat.eq_zero_or_pos t with h0 | hpos
        · rw [h0, hin.2.1 i hik]
          norm_num
        · exact (hin.2.2.1 i t hik hpos htk').1
      · have : t = k := by omega
        rw [this]
        exact hin.2.2.2 i hik
    · intro i t hik htk hl
      simp only [Nat.min_zero] at hl
      omega
    · intro i t hik htk hl
      rw [hph]
  | succ lv ih =>
    intro hlv
    obtain ⟨hInv, hSat'⟩ := ih (by omega)
    have hstep : phase1 k M₀ (lv+1) = elimRows k lv (phase1 k M₀ lv) (k-1-lv) := rfl
    obtain ⟨hInv', hSat''⟩ := elimRows_inv x k hx M₀ hin lv hlv (phase1 k M₀ lv) hInv a
      hSat' (k-1-lv) le_rfl
    rw [hstep]
    refine ⟨LevInv_congr x k _ _ M₀ _ (fun i hik => ?_) hInv', hSat''⟩
    have hkl : k - (k-1-lv) = lv + 1 := by omega
    rw [hkl]
    by_cases h1 : lv + 1 ≤ i
    · rw [if_pos h1]
    · rw [if_neg h1, Nat.min_eq_left (by omega), Nat.min_eq_left (by omega)]

end Bmpsss

namespace Bmpsss

theorem int_eq_zero_of_cast (z : ℤ) (h1 : 0 ≤ z) (h2 : z ≤ 250)
    (h3 : ((z : ℤ) : ZMod 251) = 0) : z = 0 := by
  have h4 : ((z.toNat : ℕ) : ZMod 251) = 0 := by
    rw [toNat_cast_zmod z h1]
    exact h3
  have hlt : z.toNat < 251 := by omega
  have hv := ZMod.val_cast_of_lt (n := 251) hlt
  rw [h4] at hv
  simp at hv
  omega

theorem int_eq_of_bounds_cast (z : ℤ) (m : ℕ) (h1 : 0 ≤ z) (h2 : z ≤ 250) (hm : m ≤ 250)
    (h3 : ((z : ℤ) : ZMod 251) = ((m : ℕ) : ZMod 251)) : z = (m : ℤ) := by
  have h4 : ((z.toNat : ℕ) : ZMod 251) = ((m : ℕ) : ZMod 251) := by
    rw [toNat_cast_zmod z h1]
    exact h3
  have h5 := (ZMod.natCast_eq_natCast_iff' z.toNat m 251).mp h4
  rw [Nat.mod_eq_of_lt (by omega), Nat.mod_eq_of_lt (by omega)] at h5
  omega

/-- Scaling a row preserves satisfaction. -/
theorem sat_scale (k : ℕ) (M M' : List (List ℤ)) (a : ℕ → ZMod 251) (r : ℕ)
    (hrow : ∃ C : ZMod 251, ∀ t, t ≤ k →
      ((ent M' r t : ℤ) : ZMod 251) = ((ent M r t : ℤ) : ZMod 251) * C)
    (hothers : ∀ i t, i ≠ r → ent M' i t = ent M i t)
    (hSat : SatInv k M a) : SatInv k M' a := by
  intro i hi
  by_cases hir : i = r
  · subst hir
    obtain ⟨C, hC⟩ := hrow
    unfold RowSat
    have hs := hSat i hi
    unfold RowSat at hs
    calc (∑ t in Finset.range k, ((ent M' i t : ℤ) : ZMod 251) * a t)
        = ∑ t in Finset.range k, (((ent M i t : ℤ) : ZMod 251) * C * a t) := by
          refine Finset.sum_congr rfl (fun t htm => ?_)
          rw [hC t (le_of_lt (Finset.mem_range.mp htm))]
      _ = (∑ t in Finset.range k, ((ent M i t : ℤ) : ZMod 251) * a t) * C := by
          rw [Finset.sum_mul]
          refine Finset.sum_congr rfl (fun t _ => ?_)
          ring
      _ = ((ent M i k : ℤ) : ZMod 251) * C := by rw [hs]
      _ = ((ent M' i k : ℤ) : ZMod 251) := (hC k le_rfl).symm
  · unfold RowSat
    have he : ∀ t, ent M' i t = ent M i t := fun t => hothers i t hir
    simp only [he]
    exact hSat i hi

theorem crem_natCast (m : ℕ) : crem ((m : ℕ) : ℤ) 251 = ((m % 251 : ℕ) : ℤ) := by
  unfold crem
  exact_mod_cast (Int.ofNat_tmod m 251).symm

/-- The `p2scale` step: given the state at the start of back-substitution
iteration for row `i₀` (diagonal entry congruent to the nonzero pivot
factor, rest of the row's coefficient entries literally zero), scaling
produces the unit row with reduced right-hand side. -/
theorem p2scale_step (x : ℕ → ℕ) (k : ℕ) (hx : XHyp x k) (T : List (List ℤ)) (i₀ : ℕ)
    (hi₀ : 1 ≤ i₀) (hik : i₀ < k) (hlen : T.length = k)
    (hdiag_cast : ((ent T i₀ i₀ : ℤ) : ZMod 251) = Pfac x i₀ i₀)
    (hdiag_nonneg : 0 ≤ ent T i₀ i₀) (hdiag_le : ent T i₀ i₀ ≤ 250)
    (hzeros : ∀ t, t < k → t ≠ i₀ → ent T i₀ t = 0)
    (hrhs_nonneg : 0 ≤ ent T i₀ k) :
    (ent (p2scale k T i₀) i₀ i₀ = 1 ∧
     (∀ t, t < k → t ≠ i₀ → ent (p2scale k T i₀) i₀ t = 0) ∧
     0 ≤ ent (p2scale k T i₀) i₀ k ∧ ent (p2scale k T i₀) i₀ k ≤ 250) ∧
    (∀ i t, i ≠ i₀ → ent (p2scale k T i₀) i t = ent T i t) ∧
    (p2scale k T i₀).length = k ∧
    (∃ C : ZMod 251, ∀ t, t ≤ k →
      ((ent (p2scale k T i₀) i₀ t : ℤ) : ZMod 251) = ((ent T i₀ t : ℤ) : ZMod 251) * C) := by
  have hPf_ne : Pfac x i₀ i₀ ≠ 0 := Pfac_ne_zero x k hx i₀ i₀ hik le_rfl
  have hw_ne : ent T i₀ i₀ ≠ 0 := by
    intro h
    rw [h] at hdiag_cast
    exact hPf_ne (by simpa using hdiag_cast.symm)
  have hwt1 : 1 ≤ (ent T i₀ i₀).toNat := by omega
  have hwt2 : (ent T i₀ i₀).toNat ≤ 250 := by omega
  have hminv_cast : ((modinv (ent T i₀ i₀).toNat : ℕ) : ZMod 251) = (Pfac x i₀ i₀)⁻¹ := by
    rw [modinv_cast _ hwt1 hwt2, toNat_cast_zmod _ hdiag_nonneg, hdiag_cast]
  have hent : ∀ t, t ≤ k → ent (p2scale k T i₀) i₀ t =
      if t = k then crem (ent T i₀ k * (modinv (ent T i₀ i₀).toNat : ℕ)) 251
      else if t = i₀ then crem (ent T i₀ i₀ * (modinv (ent T i₀ i₀).toNat : ℕ)) 251
      else ent T i₀ t := by
    intro t ht
    exact ent_p2scale_self k T i₀ t (by omega) ht
  have hdiag1 : ent (p2scale k T i₀) i₀ i₀ = 1 := by
    rw [hent i₀ (by omega), if_neg (by omega), if_pos rfl]
    have hw : ent T i₀ i₀ = (((ent T i₀ i₀).toNat : ℕ) : ℤ) :=
      (Int.toNat_of_nonneg hdiag_nonneg).symm
    rw [hw]
    have hc : ((((ent T i₀ i₀).toNat : ℕ) : ℤ)
          * ((modinv (((ent T i₀ i₀).toNat : ℕ) : ℤ).toNat : ℕ) : ℤ))
        = ((((ent T i₀ i₀).toNat * modinv (ent T i₀ i₀).toNat : ℕ) : ℕ) : ℤ) := by
      rw [Int.toNat_natCast]
      push_cast
      ring
    rw [hc, crem_natCast, modinv_mul (ent T i₀ i₀).toNat hwt1 hwt2]
    norm_num
  have hrhs_bounds := crem_nonneg_bounds (ent T i₀ k * (modinv (ent T i₀ i₀).toNat : ℕ))
    (mul_nonneg hrhs_nonneg (by positivity))
  refine ⟨⟨hdiag1, ?_, ?_, ?_⟩, ?_, ?_, ?_⟩
  · intro t htk htne
    rw [hent t (le_of_lt htk), if_neg (by omega), if_neg htne]
    exact hzeros t htk htne
  · rw [hent k le_rfl, if_pos rfl]
    exact hrhs_bounds.1
  · rw [hent k le_rfl, if_pos rfl]
    exact hrhs_bounds.2
  · intro i t hir
    exact ent_p2scale_ne k T i₀ i t hir
  · rw [p2scale_length, hlen]
  · refine ⟨(Pfac x i₀ i₀)⁻¹, fun t ht => ?_⟩
    rw [hent t ht]
    by_cases htk : t = k
    · subst htk
      rw [if_pos rfl, crem_nonneg_cast _ (mul_nonneg hrhs_nonneg (by positivity)),
        Int.cast_mul, Int.cast_natCast, hminv_cast]
    · rw [if_neg htk]
      by_cases hti : t = i₀
      · subst hti
        rw [if_pos rfl]
        have h1 : ((crem (ent T t t * (modinv (ent T t t).toNat : ℕ)) 251 : ℤ) : ZMod 251)
            = ((ent T t t : ℤ) : ZMod 251) * ((modinv (ent T t t).toNat : ℕ) : ZMod 251) := by
          rw [crem_nonneg_cast _ (mul_nonneg hdiag_nonneg (by positivity)), Int.cast_mul,
            Int.cast_natCast]
        rw [h1, hminv_cast]
      · rw [if_neg hti]
        have hz : ent T i₀ t = 0 := hzeros t (by omega) hti
        rw [hz]
        norm_num

end Bmpsss

namespace Bmpsss

/-- Invariant of the inner loop `for (t = i-1; t >= 0; t--)` of the
back-substitution phase, starting from a state `T1` whose row `i₀` is the
unit row with reduced right-hand side. -/
theorem p2elimRows_inv (k : ℕ) (T1 : List (List ℤ)) (i₀ : ℕ)
    (_hi₀ : 1 ≤ i₀) (hik : i₀ < k) (hlen : T1.length = k)
    (hrow1 : ent T1 i₀ i₀ = 1)
    (hrow0 : ∀ t, t < k → t ≠ i₀ → ent T1 i₀ t = 0)
    (hrhs : 0 ≤ ent T1 i₀ k ∧ ent T1 i₀ k ≤ 250)
    (hnn : ∀ r t, r < i₀ → t ≤ k → 0 ≤ ent T1 r t) :
    ∀ d, d ≤ i₀ →
      (p2elimRows k i₀ T1 d).length = k ∧
      (∀ r t, i₀ ≤ r → ent (p2elimRows k i₀ T1 d) r t = ent T1 r t) ∧
      (∀ r t, r < i₀ - d → ent (p2elimRows k i₀ T1 d) r t = ent T1 r t) ∧
      (∀ r, i₀ - d ≤ r → r < i₀ →
        ent (p2elimRows k i₀ T1 d) r i₀ = 0 ∧
        (0 ≤ ent (p2elimRows k i₀ T1 d) r k ∧ ent (p2elimRows k i₀ T1 d) r k ≤ 250) ∧
        (∀ t, t ≤ k → t ≠ i₀ → t ≠ k → ent (p2elimRows k i₀ T1 d) r t = ent T1 r t)) ∧
      (∀ a : ℕ → ZMod 251, SatInv k T1 a → SatInv k (p2elimRows k i₀ T1 d) a) := by
  intro d
  induction d with
  | zero =>
    intro _
    exact ⟨hlen, fun r t _ => rfl, fun r t _ => rfl,
      fun r hr1 hr2 => absurd (lt_of_le_of_lt hr1 hr2) (lt_irrefl _),
      fun a h => h⟩
  | succ d ih =>
    intro hd
    obtain ⟨hlen', hhigh, hlow, hmid, hsat⟩ := ih (by omega)
    have ht₀ : i₀ - 1 - d < i₀ - d := by omega
    have ht₀k : i₀ - 1 - d < k := by omega
    have hstep : p2elimRows k i₀ T1 (d+1) = p2elimRow k (p2elimRows k i₀ T1 d) i₀ (i₀-1-d) :=
      rfl
    have hself : ∀ s, s ≤ k → ent (p2elimRows k i₀ T1 (d+1)) (i₀-1-d) s =
        if s = k then cmod (ent (p2elimRows k i₀ T1 d) (i₀-1-d) k -
          crem (ent (p2elimRows k i₀ T1 d) i₀ k
            * ent (p2elimRows k i₀ T1 d) (i₀-1-d) i₀) 251) 251
        else if s = i₀ then 0
        else ent (p2elimRows k i₀ T1 d) (i₀-1-d) s := by
      intro s hs
      rw [hstep]
      exact ent_p2elimRow_self k _ i₀ (i₀-1-d) s (by omega) hs
    have hne : ∀ r s, r ≠ i₀-1-d →
        ent (p2elimRows k i₀ T1 (d+1)) r s = ent (p2elimRows k i₀ T1 d) r s := by
      intro r s hr
      rw [hstep]
      exact ent_p2elimRow_ne k _ i₀ (i₀-1-d) r s hr
    have hrowi_k : ent (p2elimRows k i₀ T1 d) i₀ k = ent T1 i₀ k := hhigh i₀ k le_rfl
    have ht₀i₀ : ent (p2elimRows k i₀ T1 d) (i₀-1-d) i₀ = ent T1 (i₀-1-d) i₀ :=
      hlow (i₀-1-d) i₀ ht₀
    have hprod_nonneg : 0 ≤ ent (p2elimRows k i₀ T1 d) i₀ k
        * ent (p2elimRows k i₀ T1 d) (i₀-1-d) i₀ := by
      rw [hrowi_k, ht₀i₀]
      exact mul_nonneg hrhs.1 (hnn (i₀-1-d) i₀ (by omega) (by omega))
    refine ⟨by rw [hstep, p2elimRow_length]; exact hlen', ?_, ?_, ?_, ?_⟩
    · intro r t hr
      rw [hne r t (by omega)]
      exact hhigh r t hr
    · intro r t hr
      rw [hne r t (by omega)]
      exact hlow r t (by omega)
    · intro r hr1 hr2
      by_cases hrt : r = i₀-1-d
      · subst hrt
        refine ⟨?_, ⟨?_, ?_⟩, ?_⟩
        · rw [hself i₀ (by omega), if_neg (by omega), if_pos rfl]
        · rw [hself k le_rfl, if_pos rfl]
          exact cmod_nonneg _
        · rw [hself k le_rfl, if_pos rfl]
          exact cmod_le _
        · intro t ht hti htk
          rw [hself t ht, if_neg htk, if_neg hti]
          exact hlow _ t ht₀
      · have hr' : i₀ - d ≤ r := by omega
        obtain ⟨m1, m2, m3⟩ := hmid r hr' hr2
        exact ⟨by rw [hne r i₀ hrt]; exact m1,
          ⟨by rw [hne r k hrt]; exact m2.1, by rw [hne r k hrt]; exact m2.2⟩,
          fun t ht hti htk => by rw [hne r t hrt]; exact m3 t ht hti htk⟩
    · intro a hSatT1
      have hS := hsat a hSatT1
      rw [hstep]
      refine sat_rowop k (p2elimRows k i₀ T1 d) _ a (i₀-1-d) i₀
        ⟨((ent (p2elimRows k i₀ T1 d) (i₀-1-d) i₀ : ℤ) : ZMod 251), ?_⟩
        (fun i t hir => ent_p2elimRow_ne k _ i₀ (i₀-1-d) i t hir) hik hS
      intro t ht
      rw [← hstep, hself t ht]
      by_cases htk : t = k
      · subst htk
        rw [if_pos rfl, cmod_cast, Int.cast_sub, crem_nonneg_cast _ hprod_nonneg,
          Int.cast_mul]
      · rw [if_neg htk]
        by_cases hti : t = i₀
        · rw [if_pos hti, hti]
          have h1 : ent (p2elimRows k i₀ T1 d) i₀ i₀ = 1 := by
            rw [hhigh i₀ i₀ le_rfl]
            exact hrow1
          rw [h1]
          push_cast
          ring
        · rw [if_neg hti]
          have h0 : ent (p2elimRows k i₀ T1 d) i₀ t = 0 := by
            rw [hhigh i₀ t le_rfl]
            exact hrow0 t (by omega) hti
          rw [h0]
          norm_num

end Bmpsss

namespace Bmpsss

/-- Invariant of the whole back-substitution phase. -/
theorem phase2_inv (x : ℕ → ℕ) (k : ℕ) (hx : XHyp x k) (hk : 2 ≤ k)
    (U : List (List ℤ)) (hU : P2Inv x k 0 U) (a : ℕ → ZMod 251) (hSatU : SatInv k U a) :
    ∀ c, c ≤ k - 1 → P2Inv x k c (phase2 k U c) ∧ SatInv k (phase2 k U c) a := by
  intro c
  induction c with
  | zero =>
    intro _
    exact ⟨hU, hSatU⟩
  | succ c ih =>
    intro hc
    obtain ⟨hP, hS⟩ := ih (by omega)
    obtain ⟨hTlen, hproc, hunproc⟩ := hP
    have hi₀ : 1 ≤ k-1-c := by omega
    have hik : k-1-c < k := by omega
    have hiu : k-1-c < k - c := by omega
    obtain ⟨u1, u2, u3, u4, u5, u8⟩ := hunproc (k-1-c) hiu
    have hzeros : ∀ t, t < k → t ≠ k-1-c → ent (phase2 k U c) (k-1-c) t = 0 := by
      intro t htk htne
      rcases Nat.lt_or_ge t (k-1-c) with h | h
      · exact u1 t h
      · exact u5 t (by omega) htk
    obtain ⟨hT1row, hT1others, hT1len, hT1C⟩ :=
      p2scale_step x k hx (phase2 k U c) (k-1-c) hi₀ hik hTlen u2 (u4 (k-1-c) (by omega))
        (u3 hi₀) hzeros (u4 k le_rfl)
    have hnn1 : ∀ r t, r < k-1-c → t ≤ k → 0 ≤ ent (p2scale k (phase2 k U c) (k-1-c)) r t := by
      intro r t hr ht
      rw [hT1others r t (by omega)]
      exact (hunproc r (by omega)).2.2.2.1 t ht
    obtain ⟨hSlen, hShigh, hSlow, hSmid, hSsat⟩ :=
      p2elimRows_inv k (p2scale k (phase2 k U c) (k-1-c)) (k-1-c) hi₀ hik hT1len
        hT1row.1 hT1row.2.1 ⟨hT1row.2.2.1, hT1row.2.2.2⟩ hnn1 (k-1-c) le_rfl
    have hstep : phase2 k U (c+1) = p2elimRows k (k-1-c)
        (p2scale k (phase2 k U c) (k-1-c)) (k-1-c) := rfl
    constructor
    · refine ⟨by rw [hstep]; exact hSlen, ?_, ?_⟩
      · intro r hr1 hr2
        rw [hstep]
        by_cases hri : r = k-1-c
        · refine ⟨?_, ?_, ?_, ?_⟩
          · rw [hri, hShigh (k-1-c) (k-1-c) le_rfl]
            exact hT1row.1
          · intro t htk htne
            rw [hri] at htne ⊢
            rw [hShigh (k-1-c) t le_rfl]
            exact hT1row.2.1 t htk htne
          · rw [hri, hShigh (k-1-c) k le_rfl]
            exact hT1row.2.2.1
          · rw [hri, hShigh (k-1-c) k le_rfl]
            exact hT1row.2.2.2
        · have hrge : k - c ≤ r := by omega
          have hrne : r ≠ k-1-c := hri
          obtain ⟨p1, p2, p3, p4⟩ := hproc r hrge hr2
          refine ⟨?_, ?_, ?_, ?_⟩
          · rw [hShigh r r (by omega), hT1others r r hrne]
            exact p1
          · intro t htk htne
            rw [hShigh r t (by omega), hT1others r t hrne]
            exact p2 t htk htne
          · rw [hShigh r k (by omega), hT1others r k hrne]
            exact p3
          · rw [hShigh r k (by omega), hT1others r k hrne]
            exact p4
      · intro r hr
        have hrlt : r < k-1-c := by omega
        have hrne : r ≠ k-1-c := by omega
        obtain ⟨m1, m2, m3⟩ := hSmid r (by omega) (by omega)
        obtain ⟨v1, v2, v3, v4, v5, v8⟩ := hunproc r (by omega)
        rw [hstep]
        refine ⟨?_, ?_, ?_, ?_, ?_, ?_⟩
        · intro t htr
          rw [m3 t (by omega) (by omega) (by omega), hT1others r t hrne]
          exact v1 t htr
        · rw [m3 r (by omega) (by omega) (by omega), hT1others r r hrne]
          exact v2
        · intro hr1
          rw [m3 r (by omega) (by omega) (by omega), hT1others r r hrne]
          exact v3 hr1
        · intro t ht
          by_cases hti : t = k-1-c
          · rw [hti]
            rw [m1]
          · by_cases htk : t = k
            · rw [htk]
              exact m2.1
            · rw [m3 t ht hti htk, hT1others r t hrne]
              exact v4 t ht
        · intro t ht1 ht2
          by_cases hti : t = k-1-c
          · rw [hti, m1]
          · rw [m3 t (by omega) hti (by omega), hT1others r t hrne]
            exact v5 t (by omega) ht2
        · intro _
          exact m2.2
    · rw [hstep]
      exact hSsat a (sat_scale k (phase2 k U c) _ a (k-1-c) hT1C hT1others hS)

end Bmpsss

namespace Bmpsss

/-- The output of the echelon phase satisfies the entry invariant of the
back-substitution phase. -/
theorem P2Inv_of_phase1 (x : ℕ → ℕ) (k : ℕ) (hx : XHyp x k) (M₀ : List (List ℤ))
    (hin : InputHyp x k M₀) (hk : 2 ≤ k) (a : ℕ → ZMod 251) (hSat0 : SatInv k M₀ a) :
    P2Inv x k 0 (phase1 k M₀ (k-1)) ∧ SatInv k (phase1 k M₀ (k-1)) a := by
  obtain ⟨⟨hlen, hcast, hnn, hbd, hun⟩, hSat⟩ :=
    phase1_inv x k hx M₀ hin hk a hSat0 (k-1) le_rfl
  simp only [] at hcast hbd hun
  have hmin : ∀ i, i < k → min i (k-1) = i := fun i hik => Nat.min_eq_left (by omega)
  refine ⟨⟨hlen, ?_, ?_⟩, hSat⟩
  · intro r hr1 hr2
    omega
  · intro r hr
    have hrk : r < k := by omega
    refine ⟨?_, ?_, ?_, fun t ht => hnn r t hrk ht, ?_, ?_⟩
    · intro t htr
      have hc := hcast r t hrk (by omega)
      rw [hmin r hrk] at hc
      rw [rowVal_below x r r t htr] at hc
      rcases Nat.eq_zero_or_pos r with h0 | hpos
      · omega
      · exact int_eq_zero_of_cast _ (hnn r t hrk (by omega))
          (hbd r t hrk (by omega) (by rw [hmin r hrk]; omega)) hc
    · have hc := hcast r r hrk hrk
      rw [hmin r hrk, rowVal_pivot] at hc
      exact hc
    · intro hr1
      exact hbd r r hrk (by omega) (by rw [hmin r hrk]; omega)
    · intro t ht1 ht2
      omega
    · intro hc1
      omega

/-- Main correctness theorem for `findcoefficients`: on a matrix whose
rows encode the points `(x_j, y_j)` of a polynomial system with distinct
nonzero sample points, the final column `k` holds reduced representatives
of any vector `a` that satisfies the system. -/
theorem findcoefficients_main (x : ℕ → ℕ) (k : ℕ) (hx : XHyp x k) (hk : 2 ≤ k)
    (M₀ : List (List ℤ)) (hin : InputHyp x k M₀) (a : ℕ → ZMod 251)
    (hSat0 : SatInv k M₀ a) :
    ∀ r, r < k → 0 ≤ ent (findcoefficients M₀ k) r k ∧
      ent (findcoefficients M₀ k) r k ≤ 250 ∧
      ((ent (findcoefficients M₀ k) r k : ℤ) : ZMod 251) = a r := by
  obtain ⟨hU, hSatU⟩ := P2Inv_of_phase1 x k hx M₀ hin hk a hSat0
  obtain ⟨hP, hS⟩ := phase2_inv x k hx hk (phase1 k M₀ (k-1)) hU a hSatU (k-1) le_rfl
  have hF : findcoefficients M₀ k = phase2 k (phase1 k M₀ (k-1)) (k-1) := rfl
  obtain ⟨hFlen, hproc, hunproc⟩ := hP
  have hk1 : k - (k-1) = 1 := by omega
  intro r hrk
  rcases Nat.eq_zero_or_pos r with h0 | hpos
  · subst h0
    obtain ⟨u1, u2, u3, u4, u5, u8⟩ := hunproc 0 (by omega)
    have hsat0 := hS 0 (by omega)
    unfold RowSat at hsat0
    have hPfac0 : Pfac x 0 0 = 1 := Pfac_zero x 0
    have hsum : (∑ t in Finset.range k,
        ((ent (phase2 k (phase1 k M₀ (k-1)) (k-1)) 0 t : ℤ) : ZMod 251) * a t) = a 0 := by
      rw [Finset.sum_eq_single 0]
      · rw [u2, hPfac0, one_mul]
      · intro t htm htne
        rw [u5 t (by omega) (Finset.mem_range.mp htm)]
        norm_num
      · intro h
        exact absurd (Finset.mem_range.mpr (by omega)) h
    rw [hsum] at hsat0
    rw [hF]
    exact ⟨u4 k le_rfl, u8 (by omega), hsat0.symm⟩
  · obtain ⟨p1, p2, p3, p4⟩ := hproc r (by omega) hrk
    have hsatr := hS r hrk
    unfold RowSat at hsatr
    have hsum : (∑ t in Finset.range k,
        ((ent (phase2 k (phase1 k M₀ (k-1)) (k-1)) r t : ℤ) : ZMod 251) * a t) = a r := by
      rw [Finset.sum_eq_single r]
      · rw [p1]
        norm_num
      · intro t htm htne
        rw [p2 t (Finset.mem_range.mp htm) htne]
        norm_num
      · intro h
        exact absurd (Finset.mem_range.mpr hrk) h
    rw [hsum] at hsatr
    rw [hF]
    exact ⟨p3, p4, hsatr.symm⟩

end Bmpsss

namespace Bmpsss

/-- Existence of polynomial coefficients through any `k` points with
distinct sample points, via invertibility of the Vandermonde matrix over
`GF(251)`. -/
theorem vand_solution_exists (x y : ℕ → ℕ) (k : ℕ) (hx : XHyp x k) :
    ∃ a : ℕ → ZMod 251, ∀ j, j < k →
      ∑ i in Finset.range k, a i * (Xc x j) ^ i = (y j : ZMod 251) := by
  set v : Fin k → ZMod 251 := fun j => Xc x j.val with hv
  have hdet : IsUnit (Matrix.vandermonde v).det := by
    rw [Matrix.det_vandermonde]
    apply IsUnit.mk0
    rw [Finset.prod_ne_zero_iff]
    intro i _
    rw [Finset.prod_ne_zero_iff]
    intro j hj
    rw [Finset.mem_Ioi] at hj
    intro hz
    have : Xc x j.val = Xc x i.val := by
      rw [hv] at hz
      simp only [] at hz
      linear_combination hz
    have := Xc_injOn x k hx j.val i.val j.isLt i.isLt this
    omega
  set aF : Fin k → ZMod 251 :=
    (Matrix.vandermonde v)⁻¹.mulVec (fun j => (y j.val : ZMod 251)) with haF
  have hVa : (Matrix.vandermonde v).mulVec aF = (fun j => (y j.val : ZMod 251)) := by
    rw [haF, Matrix.mulVec_mulVec, Matrix.mul_nonsing_inv _ hdet, Matrix.one_mulVec]
  refine ⟨fun t => if h : t < k then aF ⟨t, h⟩ else 0, ?_⟩
  intro j hj
  have := congrFun hVa ⟨j, hj⟩
  rw [Matrix.mulVec] at this
  rw [← this]
  unfold Matrix.dotProduct
  rw [← Fin.sum_univ_eq_sum_range (fun i => (if h : i < k then aF ⟨i, h⟩ else 0)
    * (Xc x j) ^ i) k]
  refine Finset.sum_congr rfl (fun i _ => ?_)
  rw [dif_pos i.isLt, Matrix.vandermonde]
  simp only [Matrix.of_apply, hv]
  ring

theorem ent_vandMat (k : ℕ) (x y : ℕ → ℕ) (j t : ℕ) (hj : j < k) (ht : t ≤ k) :
    ent (vandMat k x y) j t =
      if t = k then ((y j : ℕ) : ℤ) else (((x j) ^ t % 251 : ℕ) : ℤ) := by
  unfold ent vandMat
  have hlen : j < ((List.range k).map (fun j => (List.range (k+1)).map (fun t =>
      if t = k then ((y j : ℕ) : ℤ) else (((x j) ^ t % 251 : ℕ) : ℤ)))).length := by
    simpa using hj
  rw [getD_of_lt _ [] j hlen]
  simp only [List.getElem_map, List.getElem_range]
  rw [getD_range_map _ _ _ (by omega)]

theorem vandMat_input (k : ℕ) (x y : ℕ → ℕ) (hk : 2 ≤ k) :
    InputHyp x k (vandMat k x y) := by
  refine ⟨by simp [vandMat], ?_, ?_, ?_⟩
  · intro i hik
    rw [ent_vandMat k x y i 0 hik (by omega), if_neg (by omega), pow_zero,
      Nat.mod_eq_of_lt (by norm_num)]
    norm_num
  · intro i t hik ht1 htk
    rw [ent_vandMat k x y i t hik (by omega), if_neg (by omega)]
    constructor
    · positivity
    · rw [Int.cast_natCast, ZMod.natCast_mod]
      push_cast
      rfl
  · intro i hik
    rw [ent_vandMat k x y i k hik le_rfl, if_pos rfl]
    positivity

theorem vandMat_rowsat (k : ℕ) (x y : ℕ → ℕ) (_hk : 2 ≤ k) (a : ℕ → ZMod 251)
    (j : ℕ) (hj : j < k) :
    RowSat k (vandMat k x y) a j ↔
      (∑ i in Finset.range k, a i * (Xc x j) ^ i = (y j : ZMod 251)) := by
  unfold RowSat
  have hL : (∑ t in Finset.range k, ((ent (vandMat k x y) j t : ℤ) : ZMod 251) * a t)
      = ∑ t in Finset.range k, a t * (Xc x j) ^ t := by
    refine Finset.sum_congr rfl (fun t htm => ?_)
    have htk := Finset.mem_range.mp htm
    rw [ent_vandMat k x y j t hj (by omega), if_neg (by omega), Int.cast_natCast,
      ZMod.natCast_mod]
    push_cast
    unfold Xc
    ring
  have hR : ((ent (vandMat k x y) j k : ℤ) : ZMod 251) = (y j : ZMod 251) := by
    rw [ent_vandMat k x y j k hj le_rfl, if_pos rfl, Int.cast_natCast]
  rw [hL, hR]

/-- C2: for every `k ≥ 2` and `k` sample points `(x_j, y_j)` with distinct
`x_j ∈ [1, 250]` and `y_j ∈ [0, 250]`, running `findcoefficients` on the
augmented Vandermonde matrix `M[j][t] = x_j^t mod 251`, `M[j][k] = y_j`
leaves in column `k` reduced representatives of the unique coefficients
`(a_0, …, a_{k-1})` of `GF(251)` with `y_j = Σ_i a_i·x_j^i mod 251`:
column `k` solves the system, and every solution of the system agrees with
column `k`. -/
theorem C2_findcoefficients (k : ℕ) (x y : ℕ → ℕ) (hk : 2 ≤ k)
    (hx1 : ∀ j, j < k → 1 ≤ x j ∧ x j ≤ 250)
    (hinj : ∀ j1 j2, j1 < k → j2 < k → x j1 = x j2 → j1 = j2)
    (_hy : ∀ j, j < k → y j ≤ 250) :
    (∀ i, i < k → 0 ≤ ent (findcoefficients (vandMat k x y) k) i k ∧
      ent (findcoefficients (vandMat k x y) k) i k ≤ 250) ∧
    (∀ j, j < k → ∑ i in Finset.range k,
      ((ent (findcoefficients (vandMat k x y) k) i k : ℤ) : ZMod 251)
        * ((x j : ℕ) : ZMod 251) ^ i = ((y j : ℕ) : ZMod 251)) ∧
    (∀ a : ℕ → ZMod 251,
      (∀ j, j < k → ∑ i in Finset.range k, a i * ((x j : ℕ) : ZMod 251) ^ i
        = ((y j : ℕ) : ZMod 251)) →
      ∀ i, i < k → a i = ((ent (findcoefficients (vandMat k x y) k) i k : ℤ) : ZMod 251)) := by
  have hx : XHyp x k := ⟨hx1, hinj⟩
  have hin : InputHyp x k (vandMat k x y) := vandMat_input k x y hk
  obtain ⟨a₀, ha₀⟩ := vand_solution_exists x y k hx
  have hSat0 : SatInv k (vandMat k x y) a₀ := by
    intro j hj
    rw [vandMat_rowsat k x y hk a₀ j hj]
    exact ha₀ j hj
  have hmain := findcoefficients_main x k hx hk (vandMat k x y) hin a₀ hSat0
  refine ⟨fun i hik => ⟨(hmain i hik).1, (hmain i hik).2.1⟩, ?_, ?_⟩
  · intro j hj
    have := ha₀ j hj
    rw [← this]
    refine Finset.sum_congr rfl (fun i him => ?_)
    rw [(hmain i (Finset.mem_range.mp him)).2.2]
    rfl
  · intro a ha i hik
    have hSatA : SatInv k (vandMat k x y) a := by
      intro j hj
      rw [vandMat_rowsat k x y hk a j hj]
      exact ha j hj
    have hmainA := findcoefficients_main x k hx hk (vandMat k x y) hin a hSatA
    exact ((hmainA i hik).2.2).symm

end Bmpsss

namespace Bmpsss

/-- Witness for C2: `k = 2`, points `(1, 30)` and `(2, 50)` (the first
block of the spec's worked example; the recovered coefficients are 10 and
20). -/
theorem C2_findcoefficients_witness :
    (∀ i, i < 2 →
      0 ≤ ent (findcoefficients (vandMat 2 (fun j => j+1)
            (fun j => if j = 0 then 30 else 50)) 2) i 2 ∧
      ent (findcoefficients (vandMat 2 (fun j => j+1)
            (fun j => if j = 0 then 30 else 50)) 2) i 2 ≤ 250) ∧
    (∀ j, j < 2 → ∑ i in Finset.range 2,
      ((ent (findcoefficients (vandMat 2 (fun j => j+1)
            (fun j => if j = 0 then 30 else 50)) 2) i 2 : ℤ) : ZMod 251)
        * (((fun j => j+1) j : ℕ) : ZMod 251) ^ i
      = (((fun j => if j = 0 then 30 else 50) j : ℕ) : ZMod 251)) ∧
    (∀ a : ℕ → ZMod 251,
      (∀ j, j < 2 → ∑ i in Finset.range 2, a i * (((fun j => j+1) j : ℕ) : ZMod 251) ^ i
        = (((fun j => if j = 0 then 30 else 50) j : ℕ) : ZMod 251)) →
      ∀ i, i < 2 → a i = ((ent (findcoefficients (vandMat 2 (fun j => j+1)
            (fun j => if j = 0 then 30 else 50)) 2) i 2 : ℤ) : ZMod 251)) :=
  C2_findcoefficients 2 (fun j => j+1) (fun j => if j = 0 then 30 else 50)
    (by norm_num)
    (fun j hj => ⟨by show 1 ≤ j + 1; omega, by show j + 1 ≤ 250; omega⟩)
    (fun j1 j2 _ _ h => by simp only [] at h; omega)
    (fun j _ => by show (if j = 0 then 30 else 50) ≤ 250; by_cases h : j = 0 <;> simp [h])

end Bmpsss

namespace Bmpsss

/-! ### Round trip of `formshadows` and `revealsecret` without overflow -/

theorem getD_range_map' {α : Type} (f : ℕ → α) (d : α) (n t : ℕ) (ht : t < n) :
    ((List.range n).map f).getD t d = f t := by
  have hlen : t < ((List.range n).map f).length := by simpa using ht
  rw [getD_of_lt _ d t hlen]
  simp

theorem wrap32_id (z : ℤ) (h1 : -2^31 ≤ z) (h2 : z < 2^31) : wrap32 z = z := by
  unfold wrap32
  rw [Int.emod_eq_of_lt (by omega) (by omega)]
  omega

theorem intpow32_exact (s : ℕ) : ∀ t, 1 ≤ t → s ^ t ≤ 2^31 - 1 →
    intpow32 ((s : ℕ) : ℤ) t = ((s ^ t : ℕ) : ℤ) := by
  intro t
  induction t with
  | zero => intro h; omega
  | succ t ih =>
    intro _ hb
    rcases Nat.eq_zero_or_pos t with h0 | hpos
    · subst h0
      show intpow32 ((s : ℕ) : ℤ) 1 = _
      rw [show intpow32 ((s : ℕ) : ℤ) 1 = ((s : ℕ) : ℤ) from rfl]
      norm_num
    · have hbt : s ^ t ≤ 2^31 - 1 := by
        rcases Nat.eq_zero_or_pos s with hs0 | hs1
        · subst hs0
          rw [Nat.zero_pow (by omega)]
          omega
        · calc s ^ t ≤ s ^ (t+1) := Nat.pow_le_pow_right hs1 (by omega)
            _ ≤ 2^31 - 1 := hb
      obtain ⟨u, rfl⟩ : ∃ u, t = u + 1 := ⟨t - 1, by omega⟩
      have heq : intpow32 ((s : ℕ) : ℤ) (u+1+1)
          = wrap32 (intpow32 ((s : ℕ) : ℤ) (u+1) * ((s : ℕ) : ℤ)) := rfl
      rw [heq, ih (by omega) hbt]
      have hcast : ((s ^ (u+1) : ℕ) : ℤ) * ((s : ℕ) : ℤ) = ((s ^ (u+1+1) : ℕ) : ℤ) := by
        push_cast
        ring
      rw [hcast, wrap32_id]
      · have : (0 : ℤ) ≤ ((s ^ (u+1+1) : ℕ) : ℤ) := by positivity
        omega
      · have hzz : ((s ^ (u+1+1) : ℕ) : ℤ) ≤ ((2^31 - 1 : ℕ) : ℤ) := Int.ofNat_le.mpr hb
        have h31 : ((2^31 - 1 : ℕ) : ℤ) = 2^31 - 1 := by norm_num
        omega

theorem ent_buildmat (k : ℕ) (shadows : List (ℕ × List ℕ)) (i j t : ℕ)
    (hj : j < shadows.length) (ht : t ≤ k) :
    ent (buildmat k shadows i) j t =
      if t = 0 then 1
      else if t = k then ((shadows[j].2.getD i 0 : ℕ) : ℤ)
      else intpow32 ((shadows[j].1 : ℕ) : ℤ) t := by
  unfold ent buildmat
  have hlen : j < (shadows.map (fun sp => (List.range (k+1)).map (fun t =>
      if t = 0 then 1
      else if t = k then ((sp.2.getD i 0 : ℕ) : ℤ)
      else intpow32 ((sp.1 : ℕ) : ℤ) t))).length := by simpa using hj
  rw [getD_of_lt _ [] j hlen]
  simp only [List.getElem_map]
  rw [getD_range_map _ _ _ (by omega)]

theorem formshadows_getD (p : List ℕ) (k n s : ℕ) (hs1 : 1 ≤ s) (hs2 : s ≤ n) :
    (formshadows p k n).getD (s-1) (0, []) =
      (s, (List.range (p.length / k)).map (fun j => generatepixel (p.drop (j*k)) (k-1) s)) := by
  unfold formshadows
  rw [getD_range_map' _ _ _ _ (by omega)]
  have hs : s - 1 + 1 = s := by omega
  rw [hs]

theorem generatepixel_cast (coeff : List ℕ) (d v : ℕ) :
    ((generatepixel coeff d v : ℕ) : ZMod 251)
      = ∑ i in Finset.range (d+1),
          ((coeff.getD i 0 : ℕ) : ZMod 251) * ((v : ℕ) : ZMod 251) ^ i := by
  unfold generatepixel
  rw [foldl_add_eq_sum, ZMod.natCast_mod]
  push_cast
  rfl

theorem getD_drop' (l : List ℕ) (a e : ℕ) (h : a + e < l.length) :
    (l.drop a).getD e 0 = l.getD (a+e) 0 := by
  have h1 : e < (l.drop a).length := by
    rw [List.length_drop]
    omega
  rw [getD_of_lt _ _ _ h1, getD_of_lt _ _ _ h, List.getElem_drop]

theorem toPixel_natCast (v : ℕ) (hv : v < 256) : toPixel ((v : ℕ) : ℤ) = v := by
  unfold toPixel
  rw [Int.emod_eq_of_lt (by positivity) (by exact_mod_cast hv), Int.toNat_natCast]

theorem flatten_range_blocks {α : Type} (f : ℕ → α) (k : ℕ) :
    ∀ m, ((List.range m).map (fun i => (List.range k).map (fun r => f (i*k + r)))).flatten
      = (List.range (m*k)).map f := by
  intro m
  induction m with
  | zero => simp
  | succ m ih =>
    rw [List.range_succ, List.map_append, List.flatten_append, ih]
    have hmk : (m+1)*k = m*k + k := by ring
    rw [hmk, List.range_add, List.map_append]
    congr 1
    simp [List.map_map, Function.comp]

theorem map_getD_range (l : List ℕ) :
    (List.range l.length).map (fun i => l.getD i 0) = l := by
  apply List.ext_getElem
  · simp
  · intro i h1 h2
    simp only [List.getElem_map, List.getElem_range]
    rw [getD_of_lt l 0 i h2]

end Bmpsss

namespace Bmpsss

/-- Round trip of the pixel pipeline in the overflow-free range: for a
secret with pixel values in `[0, 250]` whose length is divisible by `k`,
recovering from any `k` distinct shadows (numbers in `[1, n]`, `n ≤ 250`)
returns the secret exactly, provided each chosen shadow number `s`
satisfies `s^(k-1) ≤ 2^31 - 1` so that the `int` power computation in
`revealsecret` does not overflow. -/
theorem revealsecret_formshadows_roundtrip (secret : List ℕ) (k n : ℕ) (sel : List ℕ)
    (hk : 2 ≤ k) (hn : n ≤ 250) (hdvd : k ∣ secret.length)
    (hsec : ∀ p ∈ secret, p ≤ 250)
    (hsellen : sel.length = k)
    (hselrange : ∀ s ∈ sel, 1 ≤ s ∧ s ≤ n)
    (hseldist : ∀ j1 j2, j1 < k → j2 < k → sel.getD j1 0 = sel.getD j2 0 → j1 = j2)
    (hnoovf : ∀ s ∈ sel, s ^ (k-1) ≤ 2^31 - 1) :
    revealsecret (sel.map (fun s => (formshadows secret k n).getD (s-1) (0, []))) k
      = secret := by
  obtain ⟨m, hm⟩ := hdvd
  have hmdiv : secret.length / k = m := by
    rw [hm]
    exact Nat.mul_div_cancel_left m (by omega)
  have hselmem : ∀ j, j < k → sel.getD j 0 ∈ sel := by
    intro j hj
    rw [getD_of_lt sel 0 j (by omega)]
    exact List.getElem_mem _
  have hx250 : ∀ j, j < k → 1 ≤ sel.getD j 0 ∧ sel.getD j 0 ≤ 250 := by
    intro j hj
    obtain ⟨h1, h2⟩ := hselrange _ (hselmem j hj)
    exact ⟨h1, by omega⟩
  have hX : XHyp (fun j => sel.getD j 0) k := ⟨hx250, hseldist⟩
  have hshlen : (sel.map (fun s => (formshadows secret k n).getD (s-1) (0, []))).length = k := by
    simpa using hsellen
  have hshj : ∀ j, (hj : j < k) →
      (sel.map (fun s => (formshadows secret k n).getD (s-1) (0, []))).getD j (0, [])
        = (sel.getD j 0,
           (List.range m).map (fun jj => generatepixel (secret.drop (jj*k)) (k-1)
             (sel.getD j 0))) := by
    intro j hj
    have hjlen : j < sel.length := by omega
    rw [getD_of_lt _ _ j (by simpa using hjlen), List.getElem_map]
    rw [show sel[j] = sel.getD j 0 from (getD_of_lt sel 0 j hjlen).symm]
    rw [formshadows_getD secret k n (sel.getD j 0) (hx250 j hj).1
      (hselrange _ (hselmem j hj)).2, hmdiv]
  have hgetsh : ∀ j, (hj : j < k) →
      ∀ hjl : j < (sel.map (fun s => (formshadows secret k n).getD (s-1) (0, []))).length,
      (sel.map (fun s => (formshadows secret k n).getD (s-1) (0, [])))[j]
        = (sel.getD j 0,
           (List.range m).map (fun jj => generatepixel (secret.drop (jj*k)) (k-1)
             (sel.getD j 0))) := by
    intro j hj hjl
    have := hshj j hj
    rwa [getD_of_lt _ _ j hjl] at this
  have hpow : ∀ j, j < k → ∀ t, 1 ≤ t → t ≤ k-1 →
      intpow32 ((sel.getD j 0 : ℕ) : ℤ) t = (((sel.getD j 0) ^ t : ℕ) : ℤ) := by
    intro j hj t ht1 ht2
    apply intpow32_exact _ t ht1
    calc (sel.getD j 0) ^ t ≤ (sel.getD j 0) ^ (k-1) :=
          Nat.pow_le_pow_right (hx250 j hj).1 ht2
      _ ≤ 2^31 - 1 := hnoovf _ (hselmem j hj)
  have hentB : ∀ i j t, j < k → t ≤ k →
      ent (buildmat k (sel.map (fun s => (formshadows secret k n).getD (s-1) (0, []))) i) j t
        = if t = 0 then 1
          else if t = k then
            ((((List.range m).map (fun jj => generatepixel (secret.drop (jj*k)) (k-1)
              (sel.getD j 0))).getD i 0 : ℕ) : ℤ)
          else intpow32 ((sel.getD j 0 : ℕ) : ℤ) t := by
    intro i j t hj ht
    rw [ent_buildmat k _ i j t (by omega) ht, hgetsh j hj (by omega)]
  have hin : ∀ i, InputHyp (fun j => sel.getD j 0) k
      (buildmat k (sel.map (fun s => (formshadows secret k n).getD (s-1) (0, []))) i) := by
    intro i
    refine ⟨by simp [buildmat, hsellen], ?_, ?_, ?_⟩
    · intro j hj
      rw [hentB i j 0 hj (by omega), if_pos rfl]
    · intro j t hj ht1 htk
      rw [hentB i j t hj (by omega), if_neg (by omega), if_neg (by omega),
        hpow j hj t ht1 (by omega)]
      constructor
      · positivity
      · rw [Int.cast_natCast]
        push_cast
        rfl
    · intro j hj
      rw [hentB i j k hj le_rfl, if_neg (by omega), if_pos rfl]
      positivity
  have hblock : ∀ i, i < m → ∀ r, r < k →
      ent (findcoefficients
        (buildmat k (sel.map (fun s => (formshadows secret k n).getD (s-1) (0, []))) i) k) r k
        = ((secret.getD (i*k + r) 0 : ℕ) : ℤ) := by
    intro i hi r hr
    have hsat : SatInv k
        (buildmat k (sel.map (fun s => (formshadows secret k n).getD (s-1) (0, []))) i)
        (fun t => ((secret.getD (i*k + t) 0 : ℕ) : ZMod 251)) := by
      intro j hj
      unfold RowSat
      have hLHS : (∑ t in Finset.range k,
          ((ent (buildmat k (sel.map (fun s => (formshadows secret k n).getD (s-1) (0, []))) i)
              j t : ℤ) : ZMod 251) * ((secret.getD (i*k + t) 0 : ℕ) : ZMod 251))
          = ∑ t in Finset.range k,
            ((secret.getD (i*k + t) 0 : ℕ) : ZMod 251) * ((sel.getD j 0 : ℕ) : ZMod 251) ^ t := by
        refine Finset.sum_congr rfl (fun t htm => ?_)
        have htk := Finset.mem_range.mp htm
        rcases Nat.eq_zero_or_pos t with h0 | hpos
        · subst h0
          rw [hentB i j 0 hj (by omega), if_pos rfl, pow_zero]
          norm_num
        · rw [hentB i j t hj (by omega), if_neg (by omega), if_neg (by omega),
            hpow j hj t hpos (by omega), Int.cast_natCast]
          push_cast
          ring
      have hRHS : ((ent (buildmat k
          (sel.map (fun s => (formshadows secret k n).getD (s-1) (0, []))) i) j k : ℤ)
            : ZMod 251)
          = ∑ t in Finset.range k,
            ((secret.getD (i*k + t) 0 : ℕ) : ZMod 251) * ((sel.getD j 0 : ℕ) : ZMod 251) ^ t := by
        rw [hentB i j k hj le_rfl, if_neg (by omega), if_pos rfl, Int.cast_natCast,
          getD_range_map' _ _ _ _ hi, generatepixel_cast]
        have hk1 : k - 1 + 1 = k := by omega
        rw [hk1]
        refine Finset.sum_congr rfl (fun e hem => ?_)
        have hek := Finset.mem_range.mp hem
        rw [getD_drop' secret (i*k) e (by
          have h1 : i * k + e < m * k := by
            calc i * k + e < i * k + k := by omega
              _ = (i+1) * k := by ring
              _ ≤ m * k := Nat.mul_le_mul_right k (by omega)
          rw [hm, Nat.mul_comm k m]
          exact h1)]
      rw [hLHS, hRHS]
    have hmain := findcoefficients_main (fun j => sel.getD j 0) k hX hk _ (hin i)
      (fun t => ((secret.getD (i*k + t) 0 : ℕ) : ZMod 251)) hsat r hr
    have hlt : i * k + r < secret.length := by
      have h1 : i * k + r < m * k := by
        calc i * k + r < i * k + k := by omega
          _ = (i+1) * k := by ring
          _ ≤ m * k := Nat.mul_le_mul_right k (by omega)
      rw [hm, Nat.mul_comm k m]
      exact h1
    have hsle : secret.getD (i*k + r) 0 ≤ 250 := by
      rw [getD_of_lt secret 0 _ hlt]
      exact hsec _ (List.getElem_mem _)
    exact int_eq_of_bounds_cast _ _ hmain.1 hmain.2.1 hsle hmain.2.2
  have hheadD : ∀ (l : List (ℕ × List ℕ)) (d : ℕ × List ℕ), l.headD d = l.getD 0 d := by
    intro l d
    cases l <;> rfl
  have hpixlen :
      (((sel.map (fun s => (formshadows secret k n).getD (s-1) (0, []))).headD (0, [])).2).length
        = m := by
    rw [hheadD, hshj 0 (by omega)]
    simp
  have hrs : revealsecret (sel.map (fun s => (formshadows secret k n).getD (s-1) (0, []))) k
      = ((List.range m).map (fun i => (List.range k).map (fun r =>
          toPixel (ent (findcoefficients (buildmat k
            (sel.map (fun s => (formshadows secret k n).getD (s-1) (0, []))) i) k) r k)))).flatten := by
    unfold revealsecret
    rw [hpixlen]
  rw [hrs]
  have hinner : ∀ i, i < m → (List.range k).map (fun r =>
      toPixel (ent (findcoefficients (buildmat k
        (sel.map (fun s => (formshadows secret k n).getD (s-1) (0, []))) i) k) r k))
      = (List.range k).map (fun r => secret.getD (i*k + r) 0) := by
    intro i hi
    refine List.map_congr_left (fun r hrm => ?_)
    have hrk := List.mem_range.mp hrm
    rw [hblock i hi r hrk]
    apply toPixel_natCast
    have hlt : i * k + r < secret.length := by
      have h1 : i * k + r < m * k := by
        calc i * k + r < i * k + k := by omega
          _ = (i+1) * k := by ring
          _ ≤ m * k := Nat.mul_le_mul_right k (by omega)
      rw [hm, Nat.mul_comm k m]
      exact h1
    have := hsec (secret.getD (i*k+r) 0) (by
      rw [getD_of_lt secret 0 _ hlt]
      exact List.getElem_mem _)
    omega
  have houter : (List.range m).map (fun i => (List.range k).map (fun r =>
      toPixel (ent (findcoefficients (buildmat k
        (sel.map (fun s => (formshadows secret k n).getD (s-1) (0, []))) i) k) r k)))
      = (List.range m).map (fun i => (List.range k).map (fun r => secret.getD (i*k + r) 0)) := by
    refine List.map_congr_left (fun i him => ?_)
    exact hinner i (List.mem_range.mp him)
  rw [houter, flatten_range_blocks (fun idx => secret.getD idx 0) k m]
  rw [show m * k = secret.length by rw [hm, Nat.mul_comm]]
  exact map_getD_range secret

end Bmpsss

namespace Bmpsss

/-- Spec scenario: `k = 2, n = 2` on the 4-pixel secret `[10,20,30,40]`
produces shadows `[30,70]` and `[50,110]` and recovery from both returns
the secret. -/
theorem scenario_k2_shadows_and_recovery :
    formshadows (truncategrayscale [10,20,30,40]) 2 2 = [(1, [30, 70]), (2, [50, 110])] ∧
    revealsecret (formshadows (truncategrayscale [10,20,30,40]) 2 2) 2 = [10,20,30,40] := by
  constructor
  · decide
  · decide

end Bmpsss
